import Mathlib

/-!
# A chained hash table in C (`hash_table.c`, `hash_table.h`, `main.c`)

The C code works on heap blocks through raw pointers.  The embedding keeps
that level: a pointer is a natural number (`0` is `NULL`), the `HashNode`
blocks currently allocated live in a node store, and every function of
`hash_table.c` is transcribed statement by statement over that store.

* Keys and values are `void*`; the table only copies and compares them, so
  they are plain addresses (`Nat`), compared with `=`.
* Reading or writing through a pointer that does not address an allocated
  block, indexing the bucket array out of range and freeing a block that is
  not allocated are undefined behaviour in C; here they give `Res.fault`.
* A `while` loop over a chain runs on fuel `mem.length + 1`.  A walk that
  has read that many allocated nodes has read one of them twice, so the C
  loop is then on a cycle and never ends; this gives `Res.diverge`.
* `malloc` is not computed: a function that calls it takes the pointer the
  call returns as an argument (`0` when the allocation fails).
-/

namespace HashTableC

/-- Result of running a C function. -/
inductive Res (α : Type) where
  | ok : α → Res α
  | fault : Res α
  | diverge : Res α
  deriving DecidableEq, Repr

/-- The record `struct HashNode` of `hash_table.h`. -/
structure HashNode where
  key : Nat
  val : Nat
  next : Nat
  deriving DecidableEq, Repr

/-- Node store: block number `p` (for `p ≥ 1`) is slot `p - 1`; `none` is a
block that is not allocated (never allocated, or released by `free`). -/
abbrev Heap := List (Option HashNode)

/-- Read the block at pointer `p`; `none` when `p` is `NULL` or does not
address an allocated node. -/
def load (m : Heap) (p : Nat) : Option HashNode :=
  if p = 0 then none else m.getD (p - 1) none

/-- Write block `p` (with `p ≠ 0`), extending the store when `p` lies beyond
its end. -/
def store (m : Heap) (p : Nat) (c : Option HashNode) : Heap :=
  if p - 1 < m.length then m.set (p - 1) c
  else m ++ List.replicate (p - 1 - m.length) none ++ [c]

/-- The library call `free(p)`: no effect on `NULL`, undefined on a pointer
that does not address an allocated block. -/
def free (m : Heap) (p : Nat) : Res Heap :=
  if p = 0 then .ok m
  else match load m p with
    | none => .fault
    | some _ => .ok (store m p none)

/-- The record `struct HashTable` of `hash_table.h`, together with the node
store `mem` its chains live in.  `data` is `none` for a `NULL` bucket array.
The strategy `func` receives the table in C; it is given the one field the
strategy of `main.c` reads, `size`, and the key. -/
structure HashTable where
  size : Nat
  data : Option (List Nat)
  func : Nat → Nat → Nat
  mem : Heap

/-- The expression `(hashtable->data)[index]` read as a value. -/
def bucket (t : HashTable) (index : Nat) : Res Nat :=
  match t.data with
  | none => .fault
  | some d => if h : index < d.length then .ok (d.get ⟨index, h⟩) else .fault

/-- The assignment `(hashtable->data)[index] = p`, made where the slot has
been read before. -/
def bucket_set (t : HashTable) (index : Nat) (p : Nat) : HashTable :=
  { t with data := t.data.map (fun d => d.set index p) }

/-- The function `hashfunc` of `main.c`: `(unsigned int) key % size`, for a
table of size other than 0. -/
def hashfunc (size : Nat) (key : Nat) : Nat :=
  (key % 2 ^ 32) % size

/-- The function `hashtable_init`: `table_ok` and `data_ok` say whether the
`malloc` of the record and the `calloc` of the bucket array succeed.  The
result is the caller's handle: `none` is `NULL`. -/
def hashtable_init (table_ok data_ok : Bool) (hashsize : Nat)
    (hashfunc : Nat → Nat → Nat) : Option HashTable :=
  if table_ok then
    some { size := hashsize
           data := if data_ok then some (List.replicate hashsize 0) else none
           func := hashfunc
           mem := [] }
  else none

/-- The function `hashtable_index`. -/
def hashtable_index (t : HashTable) (key : Nat) : Nat :=
  t.func t.size key

/-- The `while` loop of `hashnode_get`. -/
def hashnode_get_loop (m : Heap) (key : Nat) : Nat → Nat → Res Nat
  | 0, node => if node = 0 then .ok 0 else .diverge
  | fuel + 1, node =>
    if node = 0 then .ok 0
    else match load m node with
      | none => .fault
      | some n =>
        if n.key = key then .ok node
        else hashnode_get_loop m key fuel n.next

/-- The function `hashnode_get`. -/
def hashnode_get (t : HashTable) (key : Nat) : Res Nat :=
  let index := hashtable_index t key
  match bucket t index with
  | .ok node => hashnode_get_loop t.mem key (t.mem.length + 1) node
  | .fault => .fault
  | .diverge => .diverge

/-- The function `hashnode_create`; `malloc` is the pointer returned by its
call of `malloc`.  Returns the pointer and the new store. -/
def hashnode_create (m : Heap) (malloc : Nat) (key val next : Nat) : Nat × Heap :=
  let node := malloc
  if node ≠ 0 then
    (node, store m node (some { key := key, val := val, next := next }))
  else (node, m)

/-- The function `hashtable_set`; `malloc` is the pointer `hashnode_create`
gets from `malloc` if it is called. -/
def hashtable_set (t : HashTable) (key val : Nat) (malloc : Nat) : Res HashTable :=
  match hashnode_get t key with
  | .fault => .fault
  | .diverge => .diverge
  | .ok node =>
    if node ≠ 0 then
      -- node->val = val
      match load t.mem node with
      | none => .fault
      | some n => .ok { t with mem := store t.mem node (some { n with val := val }) }
    else
      let (node, m1) := hashnode_create t.mem malloc key val 0
      if node ≠ 0 then
        let index := hashtable_index t key
        match bucket t index with
        | .fault => .fault
        | .diverge => .diverge
        | .ok head =>
          if head ≠ 0 then
            -- node->next = head
            match load m1 node with
            | none => .fault
            | some n =>
              .ok (bucket_set { t with mem := store m1 node (some { n with next := head }) }
                    index node)
          else .ok (bucket_set { t with mem := m1 } index node)
      else .ok t

/-- The `while` loop of `hashtable_get`. -/
def hashtable_get_loop (m : Heap) (key : Nat) : Nat → Nat → Res Nat
  | 0, node => if node = 0 then .ok 0 else .diverge
  | fuel + 1, node =>
    if node = 0 then .ok 0
    else match load m node with
      | none => .fault
      | some n =>
        if n.key = key then .ok n.val
        else hashtable_get_loop m key fuel n.next

/-- The function `hashtable_get`; the result `0` is `NULL`. -/
def hashtable_get (t : HashTable) (key : Nat) : Res Nat :=
  let index := hashtable_index t key
  match bucket t index with
  | .ok node => hashtable_get_loop t.mem key (t.mem.length + 1) node
  | .fault => .fault
  | .diverge => .diverge

/-- The three statements `node->key = node->next->key; node->val =
node->next->val; node->next = node->next->next;` followed by
`free(node->next)`, each read made from the store as the statement before
left it. -/
def pop_splice (m : Heap) (node : Nat) : Res Heap :=
  match load m node with
  | none => .fault
  | some n0 =>
  match load m n0.next with
  | none => .fault
  | some s0 =>
  let m1 := store m node (some { n0 with key := s0.key })
  match load m1 node with
  | none => .fault
  | some n1 =>
  match load m1 n1.next with
  | none => .fault
  | some s1 =>
  let m2 := store m1 node (some { n1 with val := s1.val })
  match load m2 node with
  | none => .fault
  | some n2 =>
  match load m2 n2.next with
  | none => .fault
  | some s2 =>
  let m3 := store m2 node (some { n2 with next := s2.next })
  match load m3 node with
  | none => .fault
  | some n3 => free m3 n3.next

/-- The body of `if (node->key == key)` in `hashtable_pop`, for the matching
node `node` with contents `n`. -/
def pop_found (t : HashTable) (index head prev node : Nat) (n : HashNode) :
    Res (HashTable × Nat) :=
  let value := n.val
  if node = head then
    -- free(head); data[index] = NULL
    match free t.mem head with
    | .fault => .fault
    | .diverge => .diverge
    | .ok m1 => .ok (bucket_set { t with mem := m1 } index 0, value)
  else if n.next = 0 then
    -- free(node); prev->next = NULL
    match free t.mem node with
    | .fault => .fault
    | .diverge => .diverge
    | .ok m1 =>
      match load m1 prev with
      | none => .fault
      | some pn => .ok ({ t with mem := store m1 prev (some { pn with next := 0 }) }, value)
  else
    match pop_splice t.mem node with
    | .fault => .fault
    | .diverge => .diverge
    | .ok m1 => .ok ({ t with mem := m1 }, value)

/-- The `while` loop of `hashtable_pop`. -/
def hashtable_pop_loop (t : HashTable) (index head key : Nat) :
    Nat → Nat → Nat → Res (HashTable × Nat)
  | 0, _, node => if node = 0 then .ok (t, 0) else .diverge
  | fuel + 1, prev, node =>
    if node = 0 then .ok (t, 0)
    else match load t.mem node with
      | none => .fault
      | some n =>
        if n.key = key then pop_found t index head prev node n
        else hashtable_pop_loop t index head key fuel node n.next

/-- The function `hashtable_pop`: the table after the call and the returned
pointer (`0` is `NULL`). -/
def hashtable_pop (t : HashTable) (key : Nat) : Res (HashTable × Nat) :=
  let index := hashtable_index t key
  match bucket t index with
  | .ok head => hashtable_pop_loop t index head key (t.mem.length + 1) head head
  | .fault => .fault
  | .diverge => .diverge

/-- The function `hashtable_size`. -/
def hashtable_size (t : HashTable) : Nat :=
  t.size

/-! ## Chains

The data model of the table: a bucket slot is empty or heads a chain of
entries.  `IsChain m p l` reads a chain off the node store: `l` lists the
nodes met from pointer `p` on, each with its address and contents, up to the
`NULL` link that ends the chain. -/

/-- In store `m` the pointer `p` heads the `NULL`-terminated chain of allocated
nodes `l`, given as pairs of address and contents. -/
def IsChain (m : Heap) : Nat → List (Nat × HashNode) → Prop
  | p, [] => p = 0
  | p, e :: l => p = e.1 ∧ load m e.1 = some e.2 ∧ IsChain m e.2.next l

/-- Whether `IsChain m p l` holds can be computed. -/
instance IsChain.decidable (m : Heap) :
    (p : Nat) → (l : List (Nat × HashNode)) → Decidable (IsChain m p l)
  | p, [] => inferInstanceAs (Decidable (p = 0))
  | p, e :: l =>
    have := IsChain.decidable m e.2.next l
    inferInstanceAs (Decidable (p = e.1 ∧ load m e.1 = some e.2 ∧ IsChain m e.2.next l))

/-- Bucket `i` of `t` exists (the bucket array is allocated and `i` lies within
it) and its slot heads the chain `l`. -/
def ChainAt (t : HashTable) (i : Nat) (l : List (Nat × HashNode)) : Prop :=
  match bucket t i with
  | .ok head => IsChain t.mem head l
  | _ => False

/-- Whether `ChainAt t i l` holds can be computed. -/
instance ChainAt.decidable (t : HashTable) (i : Nat) (l : List (Nat × HashNode)) :
    Decidable (ChainAt t i l) := by
  unfold ChainAt
  split <;> infer_instance

/-- First entry of a chain holding `key`. -/
def first_match (key : Nat) (l : List (Nat × HashNode)) : Option (Nat × HashNode) :=
  l.find? (fun e => e.2.key = key)

/-- Address of the node visited last by a walk over `l` that started with
predecessor `prev`. -/
def last_addr (prev : Nat) : List (Nat × HashNode) → Nat
  | [] => prev
  | x :: l => last_addr x.1 l

/-- Tables reachable from `t0` by calls of `hashtable_set` and
`hashtable_pop` that return.  A call of `hashtable_set` is given what
`malloc` can return: `NULL`, or a pointer to a block that is not in use. -/
inductive Reachable (t0 : HashTable) : HashTable → Prop
  | start : Reachable t0 t0
  | set {t t' : HashTable} (key val malloc : Nat) :
      Reachable t0 t → (malloc = 0 ∨ load t.mem malloc = none) →
      hashtable_set t key val malloc = .ok t' → Reachable t0 t'
  | pop {t t' : HashTable} {r : Nat} (key : Nat) :
      Reachable t0 t → hashtable_pop t key = .ok (t', r) → Reachable t0 t'

/-! ## Tables used as concrete inputs -/

/-- Table with one bucket and the chain `8 ↦ 80`, `7 ↦ 70` in it. -/
def table_one_bucket : HashTable :=
  { size := 1
    data := some [2]
    func := hashfunc
    mem := [some { key := 7, val := 70, next := 0 }, some { key := 8, val := 80, next := 1 }] }

/-- The chain of `table_one_bucket`. -/
def chain_one_bucket : List (Nat × HashNode) :=
  [(2, { key := 8, val := 80, next := 1 }), (1, { key := 7, val := 70, next := 0 })]

/-- Table with two buckets: `8 ↦ 80`, `6 ↦ 60` in bucket 0 and `7 ↦ 70` in
bucket 1. -/
def table_two_buckets : HashTable :=
  { size := 2
    data := some [3, 2]
    func := hashfunc
    mem := [some { key := 6, val := 60, next := 0 }, some { key := 7, val := 70, next := 0 },
            some { key := 8, val := 80, next := 1 }] }

/-- The table `hashtable_init` leaves for capacity 5 and the strategy of
`main.c`. -/
def table_five : HashTable :=
  { size := 5, data := some [0, 0, 0, 0, 0], func := hashfunc, mem := [] }

/-- The table `table_five` after `set(7, 70)` with the node allocated at 1. -/
def table_five_one : HashTable :=
  { size := 5
    data := some [0, 0, 1, 0, 0]
    func := hashfunc
    mem := [some { key := 7, val := 70, next := 0 }] }

/-- The table `table_five` after `set(7, NULL)` with the node allocated at 1. -/
def table_five_null : HashTable :=
  { size := 5
    data := some [0, 0, 1, 0, 0]
    func := hashfunc
    mem := [some { key := 7, val := 0, next := 0 }] }

/-- The sequence of (key, value) pairs of a chain. -/
def entries (l : List (Nat × HashNode)) : List (Nat × Nat) :=
  l.map (fun e => (e.2.key, e.2.val))

/-- Addresses of the blocks allocated in `m`. -/
def live_addrs (m : Heap) : List Nat :=
  ((List.range m.length).map (fun i => i + 1)).filter (fun p => (load m p).isSome)

/-- Blocks allocated in `m` and not allocated in `m'`: what the calls of `free`
between the two stores released. -/
def released (m m' : Heap) : List Nat :=
  (live_addrs m).filter (fun p => (load m' p).isNone)

/-- Table with one bucket and the chain `10, 20, 30` in it, as the calls
`set(30, 300)`, `set(20, 200)`, `set(10, 100)` leave it. -/
def table_three_chain : HashTable :=
  { size := 1
    data := some [3]
    func := hashfunc
    mem := [some { key := 30, val := 300, next := 0 }, some { key := 20, val := 200, next := 1 },
            some { key := 10, val := 100, next := 2 }] }

/-- Table with one bucket and the chain `10, 20, 30, 40` in it, as the calls
`set(40, 400)`, `set(30, 300)`, `set(20, 200)`, `set(10, 100)` leave it. -/
def table_four_chain : HashTable :=
  { size := 1
    data := some [4]
    func := hashfunc
    mem := [some { key := 40, val := 400, next := 0 }, some { key := 30, val := 300, next := 1 },
            some { key := 20, val := 200, next := 2 }, some { key := 10, val := 100, next := 3 }] }

/-- The chain of `table_four_chain`. -/
def chain_four : List (Nat × HashNode) :=
  [(4, { key := 10, val := 100, next := 3 }), (3, { key := 20, val := 200, next := 2 }),
   (2, { key := 30, val := 300, next := 1 }), (1, { key := 40, val := 400, next := 0 })]

/-- The table `hashtable_pop` of `20` leaves from `table_four_chain`. -/
def table_four_popped : HashTable :=
  { size := 1
    data := some [4]
    func := hashfunc
    mem := [none, some { key := 30, val := 300, next := 1 },
            some { key := 30, val := 300, next := 1 }, some { key := 10, val := 100, next := 3 }] }

/-- The table `hashtable_pop` of `20` leaves from `table_three_chain`. -/
def table_three_popped : HashTable :=
  { size := 1
    data := some [3]
    func := hashfunc
    mem := [some { key := 30, val := 300, next := 0 }, some { key := 30, val := 300, next := 0 },
            some { key := 10, val := 100, next := 2 }] }

/-- A chain over two buckets' nodes in which the key `3` occurs twice. -/
def chain_with_duplicate : List (Nat × HashNode) :=
  [(5, { key := 2, val := 20, next := 4 }), (4, { key := 3, val := 30, next := 1 }),
   (1, { key := 7, val := 70, next := 2 }), (2, { key := 3, val := 31, next := 0 })]

/-- A chain of even keys ending in a node with the odd key `5`. -/
def chain_with_foreign_key : List (Nat × HashNode) :=
  [(4, { key := 2, val := 20, next := 3 }), (3, { key := 6, val := 60, next := 1 }),
   (1, { key := 5, val := 50, next := 0 })]

/-- A chain of bucket 0 whose last node is the head of bucket 1. -/
def chain_into_other_bucket : List (Nat × HashNode) :=
  [(5, { key := 2, val := 20, next := 4 }), (4, { key := 4, val := 40, next := 3 }),
   (3, { key := 8, val := 80, next := 1 }), (1, { key := 5, val := 50, next := 0 })]

/-! ## The node store -/

theorem load_zero (m : Heap) : load m 0 = none := by simp [load]

theorem load_store_same (m : Heap) (p : Nat) (c : Option HashNode) (hp : p ≠ 0) :
    load (store m p c) p = c := by
  unfold load store
  rw [if_neg hp]
  split
  · rename_i h
    simp [List.getD_eq_getElem?_getD, List.getElem?_set, h]
  · rename_i h
    have h1 : m.length ≤ p - 1 := by omega
    simp [List.getD_eq_getElem?_getD, List.getElem?_append_right, h1]

theorem load_store_other (m : Heap) (p q : Nat) (c : Option HashNode) (hp : p ≠ 0)
    (hq : q ≠ p) : load (store m p c) q = load m q := by
  unfold load store
  by_cases hq0 : q = 0
  · simp [hq0]
  rw [if_neg hq0, if_neg hq0]
  have hne : p - 1 ≠ q - 1 := by omega
  split
  · simp [List.getD_eq_getElem?_getD, List.getElem?_set, hne]
  · rename_i h
    simp only [List.getD_eq_getElem?_getD]
    by_cases hlt : q - 1 < m.length
    · rw [List.append_assoc, List.getElem?_append_left hlt]
    · have h1 : m.length ≤ q - 1 := by omega
      rw [List.append_assoc, List.getElem?_append_right h1]
      rw [List.getElem?_eq_none (by omega : m.length ≤ q - 1)]
      by_cases h2 : q - 1 - m.length < p - 1 - m.length
      · rw [List.getElem?_append_left (by simpa using h2)]
        simp [List.getElem?_replicate, h2]
      · rw [List.getElem?_append_right (by simpa using h2)]
        simp only [List.length_replicate]
        obtain ⟨j, hj⟩ : ∃ j, q - 1 - m.length - (p - 1 - m.length) = j + 1 :=
          ⟨q - 1 - m.length - (p - 1 - m.length) - 1, by omega⟩
        rw [hj]
        simp

theorem length_store_le (m : Heap) (p : Nat) (c : Option HashNode) :
    m.length ≤ (store m p c).length := by
  unfold store
  split <;> simp

theorem load_some_le {m : Heap} {p : Nat} {n : HashNode} (h : load m p = some n) :
    p ≠ 0 ∧ p ≤ m.length := by
  unfold load at h
  by_cases hp : p = 0
  · simp [hp] at h
  · rw [if_neg hp] at h
    refine ⟨hp, ?_⟩
    by_contra hlt
    rw [List.getD_eq_getElem?_getD, List.getElem?_eq_none (by omega)] at h
    simp at h

theorem length_store_live {m : Heap} {p : Nat} {n : HashNode} (c : Option HashNode)
    (h : load m p = some n) : (store m p c).length = m.length := by
  have := load_some_le h
  unfold store
  rw [if_pos (by omega)]
  simp

theorem IsChain.functional {m : Heap} : ∀ {l1 l2 : List (Nat × HashNode)} {p : Nat},
    IsChain m p l1 → IsChain m p l2 → l1 = l2
  | [], [], _, _, _ => rfl
  | [], e :: _, p, h1, h2 => by
    simp only [IsChain] at h1 h2
    have := (load_some_le h2.2.1).1
    omega
  | e :: _, [], p, h1, h2 => by
    simp only [IsChain] at h1 h2
    have := (load_some_le h1.2.1).1
    omega
  | e1 :: l1, e2 :: l2, p, h1, h2 => by
    simp only [IsChain] at h1 h2
    obtain ⟨ha, hb, hc⟩ := h1
    obtain ⟨ha2, hb2, hc2⟩ := h2
    have h12 : e1.1 = e2.1 := by omega
    rw [h12, hb2] at hb
    have h22 : e2.2 = e1.2 := Option.some.inj hb
    have he : e1 = e2 := Prod.ext h12 h22.symm
    subst he
    rw [IsChain.functional hc hc2]

theorem IsChain.suffix {m : Heap} : ∀ {l1 : List (Nat × HashNode)} {e : Nat × HashNode}
    {l2 : List (Nat × HashNode)} {p : Nat},
    IsChain m p (l1 ++ e :: l2) → IsChain m e.1 (e :: l2)
  | [], e, l2, p, h => by
    simp only [List.nil_append, IsChain] at h
    simp only [IsChain]
    exact ⟨trivial, h.2⟩
  | _ :: l1, e, l2, p, h => by
    simp only [List.cons_append, IsChain] at h
    exact IsChain.suffix h.2.2

theorem IsChain.nodup {m : Heap} : ∀ {l : List (Nat × HashNode)} {p : Nat},
    IsChain m p l → (l.map Prod.fst).Nodup
  | [], _, _ => List.nodup_nil
  | e :: l, p, h => by
    have h0 := h
    simp only [IsChain] at h
    simp only [List.map_cons, List.nodup_cons]
    refine ⟨?_, IsChain.nodup h.2.2⟩
    intro hmem
    obtain ⟨e2, he2, heq⟩ := List.mem_map.mp hmem
    obtain ⟨l1, l2, hl⟩ := List.append_of_mem he2
    have hs : IsChain m e2.1 (e2 :: l2) := by
      rw [hl] at h
      exact IsChain.suffix h.2.2
    have h1 : IsChain m e2.1 (e :: l) := by
      rw [heq]; simp only [IsChain]; exact ⟨trivial, h.2⟩
    have := congrArg List.length (IsChain.functional hs h1)
    rw [hl] at this
    simp at this
    omega

theorem IsChain.length_le {m : Heap} {l : List (Nat × HashNode)} {p : Nat}
    (h : IsChain m p l) : l.length ≤ m.length := by
  have hnd := IsChain.nodup h
  have hsub : (l.map Prod.fst).toFinset ⊆ Finset.Icc 1 m.length := by
    intro a ha
    rw [List.mem_toFinset] at ha
    obtain ⟨e, he, rfl⟩ := List.mem_map.mp ha
    obtain ⟨l1, l2, hl⟩ := List.append_of_mem he
    rw [hl] at h
    have := IsChain.suffix h
    simp only [IsChain] at this
    have := load_some_le this.2.1
    rw [Finset.mem_Icc]
    omega
  have hc := Finset.card_le_card hsub
  rw [List.toFinset_card_of_nodup hnd] at hc
  simpa using hc

/-! ## The loops on a chain -/

theorem first_match_cons_pos {key : Nat} {e : Nat × HashNode} (l : List (Nat × HashNode))
    (h : e.2.key = key) : first_match key (e :: l) = some e := by
  simp [first_match, List.find?, h]

theorem first_match_cons_neg {key : Nat} {e : Nat × HashNode} (l : List (Nat × HashNode))
    (h : e.2.key ≠ key) : first_match key (e :: l) = first_match key l := by
  simp [first_match, List.find?, h]

theorem first_match_none {key : Nat} {l : List (Nat × HashNode)} :
    first_match key l = none ↔ ∀ e ∈ l, e.2.key ≠ key := by
  simp [first_match, List.find?_eq_none]

theorem first_match_some {key : Nat} {l : List (Nat × HashNode)} {e : Nat × HashNode}
    (h : first_match key l = some e) :
    e.2.key = key ∧ ∃ l1 l2, l = l1 ++ e :: l2 ∧ ∀ x ∈ l1, x.2.key ≠ key := by
  induction l with
  | nil => simp [first_match] at h
  | cons x l ih =>
    by_cases hx : x.2.key = key
    · rw [first_match_cons_pos l hx] at h
      cases h
      exact ⟨hx, [], l, rfl, by simp⟩
    · rw [first_match_cons_neg l hx] at h
      obtain ⟨hk, l1, l2, hl, hne⟩ := ih h
      refine ⟨hk, x :: l1, l2, by rw [hl]; rfl, ?_⟩
      intro y hy
      rcases List.mem_cons.mp hy with rfl | hy
      · exact hx
      · exact hne y hy

theorem first_match_append {key : Nat} {l1 : List (Nat × HashNode)} (e : Nat × HashNode)
    (l2 : List (Nat × HashNode)) (h1 : ∀ x ∈ l1, x.2.key ≠ key) (he : e.2.key = key) :
    first_match key (l1 ++ e :: l2) = some e := by
  induction l1 with
  | nil => exact first_match_cons_pos l2 he
  | cons x l ih =>
    rw [List.cons_append, first_match_cons_neg _ (h1 x (List.mem_cons_self _ _))]
    exact ih (fun y hy => h1 y (List.mem_cons_of_mem _ hy))

theorem hashnode_get_loop_chain {m : Heap} {key : Nat} :
    ∀ {l : List (Nat × HashNode)} {p fuel : Nat}, IsChain m p l → l.length ≤ fuel →
      hashnode_get_loop m key fuel p
        = .ok (match first_match key l with | some e => e.1 | none => 0)
  | [], p, fuel, h, _ => by
    simp only [IsChain] at h
    subst h
    cases fuel <;> simp [hashnode_get_loop, first_match]
  | e :: l, p, 0, _, hf => by simp at hf
  | e :: l, p, fuel + 1, h, hf => by
    simp only [IsChain] at h
    obtain ⟨hp, hl, hc⟩ := h
    have hp0 : p ≠ 0 := hp ▸ (load_some_le hl).1
    rw [hashnode_get_loop, if_neg hp0, hp, hl]
    by_cases hk : e.2.key = key
    · simp [hk, first_match_cons_pos l hk]
    · simp only [hk, if_false, first_match_cons_neg l hk]
      exact hashnode_get_loop_chain hc (by simpa using hf)

theorem hashtable_get_loop_chain {m : Heap} {key : Nat} :
    ∀ {l : List (Nat × HashNode)} {p fuel : Nat}, IsChain m p l → l.length ≤ fuel →
      hashtable_get_loop m key fuel p
        = .ok (match first_match key l with | some e => e.2.val | none => 0)
  | [], p, fuel, h, _ => by
    simp only [IsChain] at h
    subst h
    cases fuel <;> simp [hashtable_get_loop, first_match]
  | e :: l, p, 0, _, hf => by simp at hf
  | e :: l, p, fuel + 1, h, hf => by
    simp only [IsChain] at h
    obtain ⟨hp, hl, hc⟩ := h
    have hp0 : p ≠ 0 := hp ▸ (load_some_le hl).1
    rw [hashtable_get_loop, if_neg hp0, hp, hl]
    by_cases hk : e.2.key = key
    · simp [hk, first_match_cons_pos l hk]
    · simp only [hk, if_false, first_match_cons_neg l hk]
      exact hashtable_get_loop_chain hc (by simpa using hf)

theorem hashtable_pop_loop_absent {t : HashTable} {index head key : Nat} :
    ∀ {l : List (Nat × HashNode)} {p prev fuel : Nat}, IsChain t.mem p l → l.length ≤ fuel →
      (∀ e ∈ l, e.2.key ≠ key) →
      hashtable_pop_loop t index head key fuel prev p = .ok (t, 0)
  | [], p, prev, fuel, h, _, _ => by
    simp only [IsChain] at h
    subst h
    cases fuel <;> simp [hashtable_pop_loop]
  | e :: l, p, prev, 0, _, hf, _ => by simp at hf
  | e :: l, p, prev, fuel + 1, h, hf, hne => by
    simp only [IsChain] at h
    obtain ⟨hp, hl, hc⟩ := h
    have hp0 : p ≠ 0 := hp ▸ (load_some_le hl).1
    rw [hashtable_pop_loop, if_neg hp0, hp, hl]
    have hk : e.2.key ≠ key := hne e (List.mem_cons_self _ _)
    simp only [hk, if_false]
    exact hashtable_pop_loop_absent hc (by simpa using hf)
      (fun x hx => hne x (List.mem_cons_of_mem _ hx))

theorem hashtable_pop_loop_found {t : HashTable} {index head key : Nat} {e : Nat × HashNode}
    {l2 : List (Nat × HashNode)} (he : e.2.key = key) :
    ∀ {l1 : List (Nat × HashNode)} {p prev fuel : Nat}, IsChain t.mem p (l1 ++ e :: l2) →
      l1.length < fuel → (∀ x ∈ l1, x.2.key ≠ key) →
      hashtable_pop_loop t index head key fuel prev p
        = pop_found t index head (last_addr prev l1) e.1 e.2
  | _, p, prev, 0, _, hf, _ => by simp at hf
  | [], p, prev, fuel + 1, h, _, _ => by
    simp only [List.nil_append, IsChain] at h
    obtain ⟨hp, hl, _⟩ := h
    have hp0 : p ≠ 0 := hp ▸ (load_some_le hl).1
    rw [hashtable_pop_loop, if_neg hp0, hp, hl]
    simp [he, last_addr]
  | x :: l1, p, prev, fuel + 1, h, hf, hne => by
    simp only [List.cons_append, IsChain] at h
    obtain ⟨hp, hl, hc⟩ := h
    have hp0 : p ≠ 0 := hp ▸ (load_some_le hl).1
    rw [hashtable_pop_loop, if_neg hp0, hp, hl]
    have hk : x.2.key ≠ key := hne x (List.mem_cons_self _ _)
    simp only [hk, if_false, last_addr]
    exact hashtable_pop_loop_found he hc (by simpa using hf)
      (fun y hy => hne y (List.mem_cons_of_mem _ hy))

/-! ## Buckets -/

theorem ChainAt.head {t : HashTable} {i : Nat} {l : List (Nat × HashNode)}
    (h : ChainAt t i l) : ∃ head, bucket t i = .ok head ∧ IsChain t.mem head l := by
  unfold ChainAt at h
  split at h
  · rename_i head hb
    exact ⟨head, hb, h⟩
  · exact h.elim

theorem ChainAt.of_head {t : HashTable} {i p : Nat} {l : List (Nat × HashNode)}
    (hb : bucket t i = .ok p) (h : IsChain t.mem p l) : ChainAt t i l := by
  unfold ChainAt
  rw [hb]
  exact h

theorem bucket_ok_iff {t : HashTable} {i p : Nat} :
    bucket t i = .ok p ↔ ∃ d, t.data = some d ∧ ∃ h : i < d.length, d.get ⟨i, h⟩ = p := by
  unfold bucket
  cases hd : t.data with
  | none => simp
  | some d =>
    by_cases h : i < d.length
    · simp [h]
    · simp [h]

theorem bucket_mem (t : HashTable) (m : Heap) (i : Nat) :
    bucket { t with mem := m } i = bucket t i := rfl

theorem bucket_set_same {t : HashTable} {i p q : Nat} (h : bucket t i = .ok q) :
    bucket (bucket_set t i p) i = .ok p := by
  obtain ⟨d, hd, hi, _⟩ := bucket_ok_iff.mp h
  rw [bucket_ok_iff]
  refine ⟨d.set i p, by simp [bucket_set, hd], by simpa using hi, by simp⟩

theorem bucket_set_other (t : HashTable) {i j : Nat} (p : Nat) (h : j ≠ i) :
    bucket (bucket_set t i p) j = bucket t j := by
  unfold bucket bucket_set
  cases hd : t.data with
  | none => simp
  | some d =>
    simp only [Option.map_some', List.length_set]
    by_cases hj : j < d.length
    · simp [hj, List.getElem_set_ne (Ne.symm h)]
    · simp [hj]

theorem bucket_set_mem (t : HashTable) (i p : Nat) : (bucket_set t i p).mem = t.mem := rfl

theorem bucket_set_size (t : HashTable) (i p : Nat) : (bucket_set t i p).size = t.size := rfl

theorem bucket_set_func (t : HashTable) (i p : Nat) : (bucket_set t i p).func = t.func := rfl

/-! ## Chains under a store -/

theorem IsChain.load_mem {m : Heap} {l : List (Nat × HashNode)} {p : Nat}
    (h : IsChain m p l) : ∀ e ∈ l, load m e.1 = some e.2 := by
  intro e he
  obtain ⟨l1, l2, hl⟩ := List.append_of_mem he
  rw [hl] at h
  have := IsChain.suffix h
  simp only [IsChain] at this
  exact this.2.1

theorem IsChain.store_other {m : Heap} {a : Nat} (c : Option HashNode) (ha : a ≠ 0) :
    ∀ {l : List (Nat × HashNode)} {p : Nat}, IsChain m p l → a ∉ l.map Prod.fst →
      IsChain (store m a c) p l
  | [], _, h, _ => h
  | e :: l, p, h, hn => by
    simp only [IsChain] at h ⊢
    simp only [List.map_cons, List.mem_cons, not_or] at hn
    refine ⟨h.1, ?_, IsChain.store_other c ha h.2.2 hn.2⟩
    rw [load_store_other m a e.1 c ha (Ne.symm hn.1)]
    exact h.2.1

theorem IsChain.of_store_other {m : Heap} {a : Nat} (c : Option HashNode) (ha : a ≠ 0) :
    ∀ {l : List (Nat × HashNode)} {p : Nat}, IsChain (store m a c) p l → a ∉ l.map Prod.fst →
      IsChain m p l
  | [], _, h, _ => h
  | e :: l, p, h, hn => by
    simp only [IsChain] at h ⊢
    simp only [List.map_cons, List.mem_cons, not_or] at hn
    refine ⟨h.1, ?_, IsChain.of_store_other c ha h.2.2 hn.2⟩
    rw [← load_store_other m a e.1 c ha (Ne.symm hn.1)]
    exact h.2.1

/-- Rewriting of the entry at address `a` in a chain description. -/
theorem IsChain.store_same_next {m : Heap} {a : Nat} {n n' : HashNode}
    (hl : load m a = some n) (hn : n'.next = n.next) :
    ∀ {l : List (Nat × HashNode)} {p : Nat}, IsChain m p l →
      IsChain (store m a (some n')) p (l.map (fun e => if e.1 = a then (a, n') else e))
  | [], _, h => h
  | e :: l, p, h => by
    simp only [IsChain] at h
    have ha : a ≠ 0 := (load_some_le hl).1
    by_cases hea : e.1 = a
    · have he2 : e.2 = n := by
        have := h.2.1
        rw [hea, hl] at this
        exact (Option.some.inj this).symm
      simp only [List.map_cons, hea, if_true, IsChain]
      refine ⟨h.1.trans hea, load_store_same m a _ ha, ?_⟩
      rw [hn, ← he2]
      exact IsChain.store_same_next hl hn h.2.2
    · simp only [List.map_cons, hea, if_false, IsChain]
      refine ⟨h.1, ?_, IsChain.store_same_next hl hn h.2.2⟩
      rw [load_store_other m a e.1 _ ha hea]
      exact h.2.1

/-! ## The functions on a table whose bucket holds a chain -/

theorem hashnode_get_chain {t : HashTable} {key : Nat} {l : List (Nat × HashNode)}
    (h : ChainAt t (hashtable_index t key) l) :
    hashnode_get t key = .ok (match first_match key l with | some e => e.1 | none => 0) := by
  obtain ⟨head, hb, hc⟩ := h.head
  simp only [hashnode_get, hb]
  exact hashnode_get_loop_chain hc (Nat.le_succ_of_le hc.length_le)

theorem hashtable_get_chain {t : HashTable} {k : Nat} {l : List (Nat × HashNode)}
    (h : ChainAt t (hashtable_index t k) l) :
    hashtable_get t k = .ok (match first_match k l with | some e => e.2.val | none => 0) := by
  obtain ⟨head, hb, hc⟩ := h.head
  simp only [hashtable_get, hb]
  exact hashtable_get_loop_chain hc (Nat.le_succ_of_le hc.length_le)

theorem hashtable_pop_absent {t : HashTable} {key : Nat} {l : List (Nat × HashNode)}
    (h : ChainAt t (hashtable_index t key) l) (hne : ∀ e ∈ l, e.2.key ≠ key) :
    hashtable_pop t key = .ok (t, 0) := by
  obtain ⟨head, hb, hc⟩ := h.head
  simp only [hashtable_pop, hb]
  exact hashtable_pop_loop_absent hc (Nat.le_succ_of_le hc.length_le) hne

theorem hashtable_pop_found {t : HashTable} {key head : Nat} {l1 l2 : List (Nat × HashNode)}
    {e : Nat × HashNode} (hb : bucket t (hashtable_index t key) = .ok head)
    (hc : IsChain t.mem head (l1 ++ e :: l2)) (hne : ∀ x ∈ l1, x.2.key ≠ key)
    (he : e.2.key = key) :
    hashtable_pop t key
      = pop_found t (hashtable_index t key) head (last_addr head l1) e.1 e.2 := by
  simp only [hashtable_pop, hb]
  refine hashtable_pop_loop_found he hc ?_ hne
  have := hc.length_le
  simp at this
  omega

/-! ## Removal of the matching node -/

theorem store_store_live {m : Heap} {p : Nat} {n : HashNode} (a b : Option HashNode)
    (h : load m p = some n) : store (store m p a) p b = store m p b := by
  have hp := load_some_le h
  have h1 : p - 1 < m.length := by omega
  have h2 : p - 1 < (m.set (p - 1) a).length := by simpa using h1
  simp only [store, if_pos h1, if_pos h2, List.set_set]

theorem free_live {m : Heap} {p : Nat} {n : HashNode} (h : load m p = some n) :
    free m p = .ok (store m p none) := by
  unfold free
  rw [if_neg (load_some_le h).1, h]

theorem pop_found_head {t : HashTable} {index head prev : Nat} {n : HashNode}
    (h : load t.mem head = some n) :
    pop_found t index head prev head n
      = .ok (bucket_set { t with mem := store t.mem head none } index 0, n.val) := by
  simp [pop_found, free_live h]

theorem pop_found_tail {t : HashTable} {index head prev node : Nat} {n pn : HashNode}
    (hnode : node ≠ head) (h : load t.mem node = some n) (hnext : n.next = 0)
    (hprev : load t.mem prev = some pn) (hne : prev ≠ node) :
    pop_found t index head prev node n
      = .ok ({ t with mem := store (store t.mem node none) prev (some { pn with next := 0 }) },
             n.val) := by
  have h1 : load (store t.mem node none) prev = some pn := by
    rw [load_store_other _ _ _ _ (load_some_le h).1 hne]
    exact hprev
  simp [pop_found, hnode, hnext, free_live h, h1]

theorem pop_splice_chain {m : Heap} {node : Nat} {n s : HashNode}
    (h : load m node = some n) (hs : load m n.next = some s) (hne : n.next ≠ node) :
    pop_splice m node = free (store m node (some s)) s.next := by
  have hn0 := (load_some_le h).1
  unfold pop_splice
  simp only [h, hs, load_store_same _ _ _ hn0, load_store_other _ _ _ _ hn0 hne,
    store_store_live _ _ h]

theorem pop_found_between {t : HashTable} {index head prev node : Nat} {n s : HashNode}
    (hnode : node ≠ head) (h : load t.mem node = some n) (hnext : n.next ≠ 0)
    (hs : load t.mem n.next = some s) (hne : n.next ≠ node) :
    pop_found t index head prev node n
      = match free (store t.mem node (some s)) s.next with
        | .ok m1 => .ok ({ t with mem := m1 }, n.val)
        | .fault => .fault
        | .diverge => .diverge := by
  simp only [pop_found, hnode, hnext, if_false, pop_splice_chain h hs hne]
  cases free (store t.mem node (some s)) s.next <;> rfl

/-! ## The effect of `hashtable_set` -/

theorem length_store (m : Heap) {p : Nat} (c : Option HashNode) (hp : p ≠ 0) :
    (store m p c).length = max m.length p := by
  unfold store
  split
  · rw [List.length_set]; omega
  · simp only [List.length_append, List.length_replicate, List.length_singleton]; omega

theorem heap_ext {m1 m2 : Heap} (hlen : m1.length = m2.length)
    (h : ∀ q, q ≠ 0 → load m1 q = load m2 q) : m1 = m2 := by
  apply List.ext_getElem hlen
  intro i h1 h2
  have := h (i + 1) (by omega)
  simp only [load, Nat.add_sub_cancel, List.getD_eq_getElem?_getD] at this
  rw [if_neg (by omega), if_neg (by omega), List.getElem?_eq_getElem h1,
    List.getElem?_eq_getElem h2] at this
  simpa using this

theorem store_store (m : Heap) {p : Nat} (a b : Option HashNode) (hp : p ≠ 0) :
    store (store m p a) p b = store m p b := by
  apply heap_ext
  · rw [length_store _ _ hp, length_store _ _ hp, length_store _ _ hp]; omega
  · intro q _
    by_cases hq : q = p
    · rw [hq, load_store_same _ _ _ hp, load_store_same _ _ _ hp]
    · rw [load_store_other _ _ _ _ hp hq, load_store_other _ _ _ _ hp hq,
        load_store_other _ _ _ _ hp hq]

theorem hashtable_set_found {t : HashTable} {key : Nat} {l1 l2 : List (Nat × HashNode)}
    {e : Nat × HashNode} (val malloc : Nat)
    (h : ChainAt t (hashtable_index t key) (l1 ++ e :: l2))
    (hne : ∀ x ∈ l1, x.2.key ≠ key) (he : e.2.key = key) :
    hashtable_set t key val malloc
      = .ok { t with mem := store t.mem e.1 (some { e.2 with val := val }) } := by
  obtain ⟨head, _, hc⟩ := h.head
  have hl : load t.mem e.1 = some e.2 := hc.load_mem e (by simp)
  have h0 : e.1 ≠ 0 := (load_some_le hl).1
  simp only [hashtable_set, hashnode_get_chain h, first_match_append e l2 hne he]
  simp [h0, hl]

theorem hashtable_set_absent {t : HashTable} {key head : Nat} {l : List (Nat × HashNode)}
    (val : Nat) {malloc : Nat} (hb : bucket t (hashtable_index t key) = .ok head)
    (hc : IsChain t.mem head l) (hne : ∀ x ∈ l, x.2.key ≠ key) (hp : malloc ≠ 0) :
    hashtable_set t key val malloc
      = .ok (bucket_set
          { t with mem := store t.mem malloc (some { key := key, val := val, next := head }) }
          (hashtable_index t key) malloc) := by
  have h := ChainAt.of_head hb hc
  simp only [hashtable_set, hashnode_get_chain h, first_match_none.mpr hne, hashnode_create]
  simp only [ne_eq, not_true_eq_false, if_false, hp, not_false_eq_true, if_true, hb]
  by_cases hh : head = 0
  · simp [hh]
  · simp [hh, load_store_same _ _ _ hp, store_store _ _ _ hp]

theorem hashtable_set_absent_null {t : HashTable} {key : Nat} {l : List (Nat × HashNode)}
    (val : Nat) (h : ChainAt t (hashtable_index t key) l) (hne : ∀ x ∈ l, x.2.key ≠ key) :
    hashtable_set t key val 0 = .ok t := by
  simp [hashtable_set, hashnode_get_chain h, first_match_none.mpr hne, hashnode_create]

theorem IsChain.store_entry {m : Heap} {p : Nat} {l1 l2 : List (Nat × HashNode)}
    {e : Nat × HashNode} (n : HashNode) (h : IsChain m p (l1 ++ e :: l2))
    (hn : n.next = e.2.next) :
    IsChain (store m e.1 (some n)) p (l1 ++ (e.1, n) :: l2) := by
  have hl : load m e.1 = some e.2 := h.load_mem e (by simp)
  have := IsChain.store_same_next hl hn h
  have hnd := h.nodup
  simp only [List.map_append, List.map_cons] at this hnd
  rw [List.nodup_append] at hnd
  obtain ⟨_, h2, h3⟩ := hnd
  rw [List.nodup_cons] at h2
  have e1 : l1.map (fun x => if x.1 = e.1 then (e.1, n) else x) = l1 := by
    conv_rhs => rw [← List.map_id l1]
    apply List.map_congr_left
    intro x hx
    have : x.1 ≠ e.1 := fun hxe =>
      h3 (List.mem_map_of_mem Prod.fst hx) (by rw [hxe]; exact List.mem_cons_self _ _)
    simp [this]
  have e2 : l2.map (fun x => if x.1 = e.1 then (e.1, n) else x) = l2 := by
    conv_rhs => rw [← List.map_id l2]
    apply List.map_congr_left
    intro x hx
    have : x.1 ≠ e.1 := fun hxe => h2.1 (hxe ▸ List.mem_map_of_mem Prod.fst hx)
    simp [this]
  rw [e1, e2] at this
  simpa using this

theorem IsChain.not_mem_of_free {m : Heap} {p a : Nat} {l : List (Nat × HashNode)}
    (h : IsChain m p l) (ha : load m a = none) : a ∉ l.map Prod.fst := by
  intro hmem
  obtain ⟨e, he, rfl⟩ := List.mem_map.mp hmem
  rw [h.load_mem e he] at ha
  cases ha

theorem hashtable_get_head {t : HashTable} {key p : Nat} {n : HashNode}
    (hb : bucket t (hashtable_index t key) = .ok p) (hl : load t.mem p = some n)
    (hk : n.key = key) : hashtable_get t key = .ok n.val := by
  simp [hashtable_get, hb, hashtable_get_loop, (load_some_le hl).1, hl, hk]

/-! ## The effect of `hashtable_pop` -/

theorem last_addr_append (prev : Nat) (l : List (Nat × HashNode)) (x : Nat × HashNode) :
    last_addr prev (l ++ [x]) = x.1 := by
  induction l generalizing prev with
  | nil => rfl
  | cons y l ih => simp only [List.cons_append, last_addr]; exact ih _

theorem IsChain.head_eq {m : Heap} {p : Nat} {e : Nat × HashNode} {l : List (Nat × HashNode)}
    (h : IsChain m p (e :: l)) : p = e.1 := by
  simp only [IsChain] at h
  exact h.1

theorem IsChain.tail {m : Heap} {p : Nat} {e : Nat × HashNode} {l : List (Nat × HashNode)}
    (h : IsChain m p (e :: l)) : IsChain m e.2.next l := by
  simp only [IsChain] at h
  exact h.2.2

theorem IsChain.drop {m : Heap} : ∀ {l1 l2 : List (Nat × HashNode)} {p : Nat},
    IsChain m p (l1 ++ l2) → ∃ q, IsChain m q l2
  | [], _, p, h => ⟨p, h⟩
  | _ :: _, _, _, h => IsChain.drop h.tail

theorem IsChain.addr_ne {m : Heap} {p : Nat} {l1 l2 : List (Nat × HashNode)}
    (h : IsChain m p (l1 ++ l2)) {a b : Nat × HashNode} (ha : a ∈ l1) (hb : b ∈ l2) :
    a.1 ≠ b.1 := by
  have hnd := h.nodup
  rw [List.map_append, List.nodup_append] at hnd
  intro hab
  exact hnd.2.2 (List.mem_map_of_mem Prod.fst ha) (hab ▸ List.mem_map_of_mem Prod.fst hb)

theorem IsChain.head_mem {m : Heap} {p : Nat} {l1 l2 : List (Nat × HashNode)}
    {x : Nat × HashNode} (h : IsChain m p ((l1 ++ [x]) ++ l2)) :
    ∃ y ∈ l1 ++ [x], y.1 = p := by
  cases l1 with
  | nil => exact ⟨x, by simp, h.head_eq.symm⟩
  | cons y l => exact ⟨y, by simp, h.head_eq.symm⟩

theorem hashtable_pop_head {t : HashTable} {key : Nat} {e : Nat × HashNode}
    {l2 : List (Nat × HashNode)} (h : ChainAt t (hashtable_index t key) (e :: l2))
    (he : e.2.key = key) :
    hashtable_pop t key
      = .ok (bucket_set { t with mem := store t.mem e.1 none } (hashtable_index t key) 0,
             e.2.val) := by
  obtain ⟨head, hb, hc⟩ := h.head
  have hh : head = e.1 := hc.head_eq
  have hl : load t.mem head = some e.2 := hh ▸ hc.load_mem e (by simp)
  have hc0 : IsChain t.mem head ([] ++ e :: l2) := hc
  rw [hashtable_pop_found hb hc0 (by simp) he, ← hh]
  exact pop_found_head hl

theorem hashtable_pop_tail {t : HashTable} {key : Nat} {x e : Nat × HashNode}
    {l1 : List (Nat × HashNode)} (h : ChainAt t (hashtable_index t key) (l1 ++ [x, e]))
    (hne : ∀ y ∈ l1 ++ [x], y.2.key ≠ key) (he : e.2.key = key) :
    hashtable_pop t key
      = .ok ({ t with
                mem := store (store t.mem e.1 none) x.1 (some { x.2 with next := 0 }) },
             e.2.val) := by
  obtain ⟨head, hb, hc⟩ := h.head
  have hc' : IsChain t.mem head ((l1 ++ [x]) ++ e :: []) := by simpa using hc
  rw [hashtable_pop_found hb hc' hne he, last_addr_append]
  have hxe : x.1 ≠ e.1 := hc'.addr_ne (a := x) (b := e) (by simp) (by simp)
  have hhead : e.1 ≠ head := by
    obtain ⟨y, hy, hyp⟩ := hc'.head_mem
    rw [← hyp]
    exact (hc'.addr_ne hy (by simp)).symm
  have hnext : e.2.next = 0 := by
    have := IsChain.suffix hc'
    simp only [IsChain] at this
    exact this.2.2
  exact pop_found_tail hhead (hc'.load_mem e (by simp)) hnext (hc'.load_mem x (by simp)) hxe

theorem hashtable_pop_between {t : HashTable} {key : Nat} {x e s : Nat × HashNode}
    {l1 l3 : List (Nat × HashNode)}
    (h : ChainAt t (hashtable_index t key) (l1 ++ x :: e :: s :: l3))
    (hne : ∀ y ∈ l1 ++ [x], y.2.key ≠ key) (he : e.2.key = key) :
    hashtable_pop t key
      = .ok ({ t with
                mem := match l3 with
                  | [] => store t.mem e.1 (some s.2)
                  | u :: _ => store (store t.mem e.1 (some s.2)) u.1 none },
             e.2.val) := by
  obtain ⟨head, hb, hc⟩ := h.head
  have hc' : IsChain t.mem head ((l1 ++ [x]) ++ e :: s :: l3) := by simpa using hc
  rw [hashtable_pop_found hb hc' hne he, last_addr_append]
  have hhead : e.1 ≠ head := by
    obtain ⟨y, hy, hyp⟩ := hc'.head_mem
    rw [← hyp]
    exact (hc'.addr_ne hy (by simp)).symm
  have hc2 : IsChain t.mem head ((l1 ++ [x, e]) ++ s :: l3) := by simpa using hc
  have hsuf := IsChain.suffix hc'
  have hs1 : e.2.next = s.1 := hsuf.tail.head_eq
  have hle : load t.mem e.1 = some e.2 := hc'.load_mem e (by simp)
  have hls : load t.mem e.2.next = some s.2 := hs1 ▸ hc'.load_mem s (by simp)
  have hse : e.2.next ≠ e.1 := by
    rw [hs1]
    exact (hc2.addr_ne (a := e) (b := s) (by simp) (by simp)).symm
  have hn0 : e.2.next ≠ 0 := (load_some_le hls).1
  rw [pop_found_between hhead hle hn0 hls hse]
  cases l3 with
  | nil =>
    have : s.2.next = 0 := by
      have := hsuf.tail.tail
      simpa [IsChain] using this
    simp [this, free]
  | cons u l4 =>
    have hu1 : s.2.next = u.1 := hsuf.tail.tail.head_eq
    have hlu : load t.mem u.1 = some u.2 := hc'.load_mem u (by simp)
    have hue : u.1 ≠ e.1 :=
      (hc2.addr_ne (a := e) (b := u) (by simp) (by simp)).symm
    have : load (store t.mem e.1 (some s.2)) u.1 = some u.2 := by
      rw [load_store_other _ _ _ _ (load_some_le hle).1 hue]
      exact hlu
    rw [hu1, free_live this]

theorem hashtable_pop_value {t : HashTable} {key : Nat} {l1 l2 : List (Nat × HashNode)}
    {e : Nat × HashNode} (h : ChainAt t (hashtable_index t key) (l1 ++ e :: l2))
    (hne : ∀ y ∈ l1, y.2.key ≠ key) (he : e.2.key = key) :
    ∃ t', hashtable_pop t key = .ok (t', e.2.val) := by
  rcases List.eq_nil_or_concat l1 with rfl | ⟨l0, x, hl1⟩
  · exact ⟨_, hashtable_pop_head h he⟩
  · rw [List.concat_eq_append] at hl1
    subst hl1
    cases l2 with
    | nil =>
      have h' : ChainAt t (hashtable_index t key) (l0 ++ [x, e]) := by simpa using h
      exact ⟨_, hashtable_pop_tail h' hne he⟩
    | cons s l3 =>
      have h' : ChainAt t (hashtable_index t key) (l0 ++ x :: e :: s :: l3) := by
        simpa using h
      exact ⟨_, hashtable_pop_between h' hne he⟩

/-! ## Overwriting and inserting -/

theorem ChainAt.store_rewrite {t : HashTable} {a : Nat} {n c : HashNode}
    (hl : load t.mem a = some n) (hn : c.next = n.next) {i : Nat}
    {l : List (Nat × HashNode)} (h : ChainAt t i l) :
    ChainAt { t with mem := store t.mem a (some c) } i
      (l.map (fun x => if x.1 = a then (a, c) else x)) := by
  obtain ⟨head, hb, hc⟩ := h.head
  exact ChainAt.of_head (t := { t with mem := store t.mem a (some c) }) hb
    (IsChain.store_same_next hl hn hc)

theorem hashtable_set_overwrite {t : HashTable} {key : Nat} {l1 l2 : List (Nat × HashNode)}
    {e : Nat × HashNode} (val malloc : Nat)
    (h : ChainAt t (hashtable_index t key) (l1 ++ e :: l2))
    (hne : ∀ x ∈ l1, x.2.key ≠ key) (he : e.2.key = key) :
    hashtable_set t key val malloc
        = .ok { t with mem := store t.mem e.1 (some { e.2 with val := val }) } ∧
      hashtable_get { t with mem := store t.mem e.1 (some { e.2 with val := val }) } key
        = .ok val ∧
      ChainAt { t with mem := store t.mem e.1 (some { e.2 with val := val }) }
        (hashtable_index t key) (l1 ++ (e.1, { e.2 with val := val }) :: l2) := by
  obtain ⟨head, hb, hc⟩ := h.head
  have hch2 : ChainAt { t with mem := store t.mem e.1 (some { e.2 with val := val }) }
      (hashtable_index t key) (l1 ++ (e.1, { e.2 with val := val }) :: l2) :=
    ChainAt.of_head (t := { t with mem := store t.mem e.1 (some { e.2 with val := val }) }) hb
      (IsChain.store_entry { e.2 with val := val } hc rfl)
  refine ⟨hashtable_set_found val malloc h hne he, ?_, hch2⟩
  have := hashtable_get_chain (k := key) hch2
  rw [first_match_append _ l2 hne (by exact he)] at this
  exact this

theorem hashtable_set_insert {t : HashTable} {key : Nat} {l : List (Nat × HashNode)}
    (val : Nat) {malloc head : Nat} (hb : bucket t (hashtable_index t key) = .ok head)
    (hc : IsChain t.mem head l) (hp : malloc ≠ 0) (hfresh : load t.mem malloc = none) :
    ChainAt (bucket_set
        { t with mem := store t.mem malloc (some { key := key, val := val, next := head }) }
        (hashtable_index t key) malloc)
      (hashtable_index t key) ((malloc, { key := key, val := val, next := head }) :: l) := by
  apply ChainAt.of_head (p := malloc)
  · exact bucket_set_same (q := head) hb
  · simp only [IsChain, bucket_set_mem]
    exact ⟨trivial, load_store_same _ _ _ hp,
      IsChain.store_other _ hp hc (hc.not_mem_of_free hfresh)⟩

theorem first_match_map_other {key a : Nat} {n : HashNode} (hn : n.key ≠ key) :
    ∀ (l : List (Nat × HashNode)), (∀ x ∈ l, x.1 = a → x.2.key ≠ key) →
      first_match key (l.map (fun x => if x.1 = a then (a, n) else x)) = first_match key l
  | [], _ => rfl
  | x :: l, h => by
    have ih := first_match_map_other hn l (fun y hy => h y (List.mem_cons_of_mem _ hy))
    rw [List.map_cons]
    by_cases hxa : x.1 = a
    · have hx := h x (List.mem_cons_self _ _) hxa
      rw [if_pos hxa, first_match_cons_neg _ (by exact hn), first_match_cons_neg _ hx, ih]
    · rw [if_neg hxa]
      by_cases hk : x.2.key = key
      · rw [first_match_cons_pos _ hk, first_match_cons_pos _ hk]
      · rw [first_match_cons_neg _ hk, first_match_cons_neg _ hk, ih]

theorem hashtable_get_chain_at {t : HashTable} {key i : Nat} {l : List (Nat × HashNode)}
    (hi : hashtable_index t key = i) (h : ChainAt t i l) :
    hashtable_get t key = .ok (match first_match key l with | some e => e.2.val | none => 0) :=
  hashtable_get_chain (hi ▸ h)

theorem ChainAt.unique {t : HashTable} {i : Nat} {l1 l2 : List (Nat × HashNode)}
    (h1 : ChainAt t i l1) (h2 : ChainAt t i l2) : l1 = l2 := by
  obtain ⟨p1, hb1, hc1⟩ := h1.head
  obtain ⟨p2, hb2, hc2⟩ := h2.head
  rw [hb1] at hb2
  cases hb2
  exact IsChain.functional hc1 hc2

theorem ChainAt.insert_other {t : HashTable} {i j malloc : Nat} (n : HashNode)
    {l : List (Nat × HashNode)} (h : ChainAt t j l) (hij : j ≠ i) (hp : malloc ≠ 0)
    (hfresh : load t.mem malloc = none) :
    ChainAt (bucket_set { t with mem := store t.mem malloc (some n) } i malloc) j l := by
  obtain ⟨head, hb, hc⟩ := h.head
  apply ChainAt.of_head (p := head)
  · rw [bucket_set_other _ _ hij]
    exact hb
  · exact IsChain.store_other _ hp hc (hc.not_mem_of_free hfresh)

theorem hashtable_get_after_set {t : HashTable} {k1 k2 : Nat} (v : Nat) {p : Nat}
    {l1 l2 : List (Nat × HashNode)}
    (h1 : ChainAt t (hashtable_index t k1) l1) (h2 : ChainAt t (hashtable_index t k2) l2)
    (hne : k1 ≠ k2) (hp : p = 0 ∨ load t.mem p = none) :
    ∃ t', hashtable_set t k1 v p = .ok t' ∧ hashtable_get t' k2 = hashtable_get t k2 := by
  obtain ⟨head, hb, hc⟩ := h1.head
  rw [hashtable_get_chain h2]
  cases hfm : first_match k1 l1 with
  | some e =>
    obtain ⟨hk, la, lb, hl, hna⟩ := first_match_some hfm
    subst hl
    refine ⟨_, hashtable_set_found v p h1 hna hk, ?_⟩
    have hle : load t.mem e.1 = some e.2 := hc.load_mem e (by simp)
    have hch := ChainAt.store_rewrite (c := { e.2 with val := v }) hle rfl h2
    rw [hashtable_get_chain (k := k2) hch, first_match_map_other (by simpa [hk] using hne)]
    intro x hx hxa
    obtain ⟨_, _, hc2⟩ := h2.head
    have := hc2.load_mem x hx
    rw [hxa, hle] at this
    rw [← Option.some.inj this, hk]
    exact hne
  | none =>
    have hna := first_match_none.mp hfm
    by_cases hp0 : p = 0
    · subst hp0
      exact ⟨t, hashtable_set_absent_null v h1 hna, hashtable_get_chain h2⟩
    · have hfresh : load t.mem p = none := hp.resolve_left hp0
      refine ⟨_, hashtable_set_absent v hb hc hna hp0, ?_⟩
      by_cases hidx : hashtable_index t k2 = hashtable_index t k1
      · rw [hidx] at h2
        have hl := ChainAt.unique h2 h1
        subst hl
        have hch := hashtable_set_insert v hb hc hp0 hfresh
        have hi : hashtable_index (bucket_set
            { t with mem := store t.mem p (some { key := k1, val := v, next := head }) }
            (hashtable_index t k1) p) k2 = hashtable_index t k1 := hidx
        rw [hashtable_get_chain_at hi hch, first_match_cons_neg _ (by exact hne)]
      · have hch := ChainAt.insert_other { key := k1, val := v, next := head }
          (i := hashtable_index t k1) h2 hidx hp0 hfresh
        rw [hashtable_get_chain (k := k2) hch]

/-! ## Fields no call changes -/

theorem hashtable_set_fields {t t' : HashTable} {key val malloc : Nat}
    (h : hashtable_set t key val malloc = .ok t') :
    t'.size = t.size ∧ t'.func = t.func := by
  unfold hashtable_set at h
  simp only [hashnode_create] at h
  repeat' split at h
  all_goals first | (cases h; exact ⟨rfl, rfl⟩) | cases h

theorem pop_found_fields {t t' : HashTable} {index head prev node r : Nat} {n : HashNode}
    (h : pop_found t index head prev node n = .ok (t', r)) :
    t'.size = t.size ∧ t'.func = t.func := by
  unfold pop_found at h
  repeat' split at h
  all_goals first | (cases h; exact ⟨rfl, rfl⟩) | cases h

theorem hashtable_pop_loop_fields {t t' : HashTable} {index head key r : Nat} :
    ∀ {fuel prev node : Nat},
      hashtable_pop_loop t index head key fuel prev node = .ok (t', r) →
      t'.size = t.size ∧ t'.func = t.func
  | 0, prev, node, h => by
    simp only [hashtable_pop_loop] at h
    split at h
    · cases h; exact ⟨rfl, rfl⟩
    · cases h
  | fuel + 1, prev, node, h => by
    simp only [hashtable_pop_loop] at h
    split at h
    · cases h; exact ⟨rfl, rfl⟩
    · split at h
      · cases h
      · split at h
        · exact pop_found_fields h
        · exact hashtable_pop_loop_fields h

theorem hashtable_pop_fields {t t' : HashTable} {key r : Nat}
    (h : hashtable_pop t key = .ok (t', r)) : t'.size = t.size ∧ t'.func = t.func := by
  simp only [hashtable_pop] at h
  split at h
  · exact hashtable_pop_loop_fields h
  · cases h
  · cases h

theorem Reachable.fields {t0 t : HashTable} (h : Reachable t0 t) :
    t.size = t0.size ∧ t.func = t0.func := by
  induction h with
  | start => exact ⟨rfl, rfl⟩
  | set key val malloc _ _ hs ih =>
    have := hashtable_set_fields hs
    exact ⟨this.1.trans ih.1, this.2.trans ih.2⟩
  | pop key _ hp ih =>
    have := hashtable_pop_fields hp
    exact ⟨this.1.trans ih.1, this.2.trans ih.2⟩

/-! ## One call, seen through the chains -/

theorem hashtable_index_congr {t t' : HashTable} (hs : t'.size = t.size)
    (hf : t'.func = t.func) (key : Nat) : hashtable_index t' key = hashtable_index t key := by
  simp only [hashtable_index, hs, hf]

theorem chainAt_fresh (n : Nat) (f : Nat → Nat → Nat) {i : Nat} (hi : i < n) :
    ChainAt { size := n, data := some (List.replicate n 0), func := f, mem := [] } i [] := by
  apply ChainAt.of_head (p := 0)
  · rw [bucket_ok_iff]
    exact ⟨_, rfl, by simpa using hi, by simp⟩
  · rfl

theorem ChainAt.store_frame {t : HashTable} {j a : Nat} {l : List (Nat × HashNode)}
    (c : Option HashNode) (h : ChainAt t j l) (ha : a ≠ 0) (hn : a ∉ l.map Prod.fst) :
    ChainAt { t with mem := store t.mem a c } j l := by
  obtain ⟨head, hb, hc⟩ := h.head
  exact ChainAt.of_head (t := { t with mem := store t.mem a c }) hb
    (IsChain.store_other c ha hc hn)

theorem ChainAt.of_head_mem {t : HashTable} {i head : Nat} {l : List (Nat × HashNode)}
    {m : Heap} (hb : bucket t i = .ok head) (h : IsChain m head l) :
    ChainAt { t with mem := m } i l :=
  ChainAt.of_head (t := { t with mem := m }) hb h

theorem set_step_insert {t : HashTable} {key i : Nat} {l : List (Nat × HashNode)}
    (val : Nat) {p : Nat} (hi : hashtable_index t key = i) (h : ChainAt t i l)
    (hne : ∀ x ∈ l, x.2.key ≠ key) (hp : p ≠ 0) (hfresh : load t.mem p = none) :
    ∃ t' head, hashtable_set t key val p = .ok t' ∧ IsChain t.mem head l ∧
      t'.size = t.size ∧ t'.func = t.func ∧
      ChainAt t' i ((p, { key := key, val := val, next := head }) :: l) ∧
      (∀ j l', j ≠ i → ChainAt t j l' → ChainAt t' j l') ∧
      (∀ q, q ≠ p → load t'.mem q = load t.mem q) := by
  subst hi
  obtain ⟨head, hb, hc⟩ := h.head
  refine ⟨_, head, hashtable_set_absent val hb hc hne hp, hc, rfl, rfl,
    hashtable_set_insert val hb hc hp hfresh, ?_, ?_⟩
  · intro j l' hj hl'
    exact ChainAt.insert_other _ hl' hj hp hfresh
  · intro q hq
    exact load_store_other _ _ _ _ hp hq

theorem set_step_overwrite {t : HashTable} {key i : Nat} {l1 l2 : List (Nat × HashNode)}
    {e : Nat × HashNode} (val p : Nat) (hi : hashtable_index t key = i)
    (h : ChainAt t i (l1 ++ e :: l2)) (hne : ∀ x ∈ l1, x.2.key ≠ key) (he : e.2.key = key) :
    ∃ t', hashtable_set t key val p = .ok t' ∧ t'.size = t.size ∧ t'.func = t.func ∧
      ChainAt t' i (l1 ++ (e.1, { e.2 with val := val }) :: l2) ∧
      (∀ j l', ChainAt t j l' → e.1 ∉ l'.map Prod.fst → ChainAt t' j l') ∧
      (∀ q, q ≠ e.1 → load t'.mem q = load t.mem q) := by
  subst hi
  obtain ⟨hs, _, hch⟩ := hashtable_set_overwrite val p h hne he
  obtain ⟨_, _, hc⟩ := h.head
  have he0 : e.1 ≠ 0 := (load_some_le (hc.load_mem e (by simp))).1
  refine ⟨_, hs, rfl, rfl, hch, ?_, ?_⟩
  · intro j l' hl' hn
    exact ChainAt.store_frame _ hl' he0 hn
  · intro q hq
    exact load_store_other _ _ _ _ he0 hq

theorem pop_step_head {t : HashTable} {key i : Nat} {e : Nat × HashNode}
    {l2 : List (Nat × HashNode)} (hi : hashtable_index t key = i)
    (h : ChainAt t i (e :: l2)) (he : e.2.key = key) :
    ∃ t', hashtable_pop t key = .ok (t', e.2.val) ∧ t'.size = t.size ∧ t'.func = t.func ∧
      ChainAt t' i [] ∧
      (∀ j l', j ≠ i → ChainAt t j l' → e.1 ∉ l'.map Prod.fst → ChainAt t' j l') := by
  subst hi
  obtain ⟨head, hb, hc⟩ := h.head
  have he0 : e.1 ≠ 0 := (load_some_le (hc.load_mem e (by simp))).1
  refine ⟨_, hashtable_pop_head h he, rfl, rfl, ?_, ?_⟩
  · exact ChainAt.of_head (p := 0) (bucket_set_same (q := head) hb) rfl
  · intro j l' hj hl' hn
    obtain ⟨hd, hbj, hcj⟩ := (ChainAt.store_frame none hl' he0 hn).head
    apply ChainAt.of_head (p := hd)
    · rw [bucket_set_other _ _ hj]
      exact hbj
    · exact hcj

theorem IsChain.cut {m m' : Heap} {x' : HashNode} :
    ∀ {l1 : List (Nat × HashNode)} {x : Nat × HashNode} {l2 l2' : List (Nat × HashNode)}
      {p : Nat}, IsChain m p (l1 ++ x :: l2) →
      (∀ y ∈ l1, load m' y.1 = load m y.1) → load m' x.1 = some x' →
      IsChain m' x'.next l2' → IsChain m' p (l1 ++ (x.1, x') :: l2')
  | [], x, l2, l2', p, h, _, hx, ht => by
    simp only [List.nil_append, IsChain] at h ⊢
    exact ⟨h.1, hx, ht⟩
  | y :: l1, x, l2, l2', p, h, hsame, hx, ht => by
    simp only [List.cons_append, IsChain] at h ⊢
    refine ⟨h.1, ?_, IsChain.cut h.2.2 (fun z hz => hsame z (List.mem_cons_of_mem _ hz)) hx ht⟩
    rw [hsame y (List.mem_cons_self _ _)]
    exact h.2.1

theorem pop_step_tail {t : HashTable} {key i : Nat} {x e : Nat × HashNode}
    {l1 : List (Nat × HashNode)} (hi : hashtable_index t key = i)
    (h : ChainAt t i (l1 ++ [x, e])) (hne : ∀ y ∈ l1 ++ [x], y.2.key ≠ key)
    (he : e.2.key = key) :
    ∃ t', hashtable_pop t key = .ok (t', e.2.val) ∧ t'.size = t.size ∧ t'.func = t.func ∧
      ChainAt t' i (l1 ++ [(x.1, { x.2 with next := 0 })]) ∧
      (∀ j l', ChainAt t j l' → e.1 ∉ l'.map Prod.fst → x.1 ∉ l'.map Prod.fst →
        ChainAt t' j l') := by
  subst hi
  obtain ⟨head, hb, hc⟩ := h.head
  have he0 : e.1 ≠ 0 := (load_some_le (hc.load_mem e (by simp))).1
  have hx0 : x.1 ≠ 0 := (load_some_le (hc.load_mem x (by simp))).1
  refine ⟨_, hashtable_pop_tail h hne he, rfl, rfl, ?_, ?_⟩
  · apply ChainAt.of_head_mem hb
    have hc1 : IsChain t.mem head (l1 ++ x :: [e]) := hc
    apply IsChain.cut hc1
    · intro y hy
      have hc2 : IsChain t.mem head (l1 ++ [x, e]) := hc
      have hyx : y.1 ≠ x.1 := hc2.addr_ne hy (by simp)
      have hye : y.1 ≠ e.1 := hc2.addr_ne hy (by simp)
      show load (store (store t.mem e.1 none) x.1 _) y.1 = _
      rw [load_store_other _ _ _ _ hx0 hyx, load_store_other _ _ _ _ he0 hye]
    · exact load_store_same _ _ _ hx0
    · rfl
  · intro j l' hl' hn1 hn2
    have h1 := ChainAt.store_frame none hl' he0 hn1
    exact ChainAt.store_frame (some { x.2 with next := 0 }) h1 hx0 hn2

/-! ## Tables without a chain, and the frame of `hashtable_pop` -/

theorem no_chain_of_fault {t : HashTable} {k : Nat} (h : hashtable_get t k = .fault)
    (l : List (Nat × HashNode)) : ¬ ChainAt t (hashtable_index t k) l := by
  intro hl
  rw [hashtable_get_chain hl] at h
  cases h

theorem IsChain.congr_load {m m' : Heap} :
    ∀ {l : List (Nat × HashNode)} {p : Nat}, IsChain m p l →
      (∀ e ∈ l, load m' e.1 = load m e.1) → IsChain m' p l
  | [], _, h, _ => h
  | e :: l, p, h, hs => by
    simp only [IsChain] at h ⊢
    refine ⟨h.1, ?_, IsChain.congr_load h.2.2 (fun x hx => hs x (List.mem_cons_of_mem _ hx))⟩
    rw [hs e (List.mem_cons_self _ _)]
    exact h.2.1

theorem hashtable_pop_frame {t : HashTable} {k : Nat} {l : List (Nat × HashNode)}
    (h : ChainAt t (hashtable_index t k) l) :
    ∃ t' r, hashtable_pop t k = .ok (t', r) ∧ t'.size = t.size ∧ t'.func = t.func ∧
      (∀ j, j ≠ hashtable_index t k → bucket t' j = bucket t j) ∧
      (∀ q, q ∉ l.map Prod.fst → load t'.mem q = load t.mem q) := by
  obtain ⟨head, hb, hc⟩ := h.head
  cases hfm : first_match k l with
  | none =>
    exact ⟨t, 0, hashtable_pop_absent h (first_match_none.mp hfm), rfl, rfl,
      fun _ _ => rfl, fun _ _ => rfl⟩
  | some e =>
    obtain ⟨hk, l1, l2, hl, hne⟩ := first_match_some hfm
    subst hl
    have he0 : e.1 ≠ 0 := (load_some_le (hc.load_mem e (by simp))).1
    rcases List.eq_nil_or_concat l1 with rfl | ⟨l0, x, hl1⟩
    · refine ⟨_, _, hashtable_pop_head h hk, rfl, rfl, ?_, ?_⟩
      · intro j hj
        exact bucket_set_other _ _ hj
      · intro q hq
        have hqe : q ≠ e.1 := fun hqe => hq (by simp [hqe])
        exact load_store_other _ _ _ _ he0 hqe
    · rw [List.concat_eq_append] at hl1
      subst hl1
      have hx0 : x.1 ≠ 0 := (load_some_le (hc.load_mem x (by simp))).1
      cases l2 with
      | nil =>
        have h' : ChainAt t (hashtable_index t k) (l0 ++ [x, e]) := by simpa using h
        refine ⟨_, _, hashtable_pop_tail h' hne hk, rfl, rfl, fun _ _ => rfl, ?_⟩
        intro q hq
        have hqe : q ≠ e.1 := fun hqe => hq (by simp [hqe])
        have hqx : q ≠ x.1 := fun hqx => hq (by simp [hqx])
        show load (store (store t.mem e.1 none) x.1 _) q = _
        rw [load_store_other _ _ _ _ hx0 hqx, load_store_other _ _ _ _ he0 hqe]
      | cons s l3 =>
        have h' : ChainAt t (hashtable_index t k) (l0 ++ x :: e :: s :: l3) := by
          simpa using h
        refine ⟨_, _, hashtable_pop_between h' hne hk, rfl, rfl, fun _ _ => rfl, ?_⟩
        intro q hq
        have hqe : q ≠ e.1 := fun hqe => hq (by simp [hqe])
        cases l3 with
        | nil =>
          show load (store t.mem e.1 _) q = _
          rw [load_store_other _ _ _ _ he0 hqe]
        | cons u l4 =>
          have hu0 : u.1 ≠ 0 := (load_some_le (hc.load_mem u (by simp))).1
          have hqu : q ≠ u.1 := fun hqu => hq (by simp [hqu])
          show load (store (store t.mem e.1 _) u.1 none) q = _
          rw [load_store_other _ _ _ _ hu0 hqu, load_store_other _ _ _ _ he0 hqe]

theorem pop_step_between_last {t : HashTable} {key i : Nat} {x e s : Nat × HashNode}
    {l1 : List (Nat × HashNode)} (hi : hashtable_index t key = i)
    (h : ChainAt t i (l1 ++ [x, e, s])) (hne : ∀ y ∈ l1 ++ [x], y.2.key ≠ key)
    (he : e.2.key = key) :
    ∃ t', hashtable_pop t key = .ok (t', e.2.val) ∧ t'.size = t.size ∧ t'.func = t.func ∧
      ChainAt t' i (l1 ++ [x, (e.1, s.2)]) ∧
      entries (l1 ++ [x, (e.1, s.2)]) = entries (l1 ++ [x, s]) ∧
      released t.mem t'.mem = [] := by
  subst hi
  obtain ⟨head, hb, hc⟩ := h.head
  have he0 : e.1 ≠ 0 := (load_some_le (hc.load_mem e (by simp))).1
  have h' : ChainAt t (hashtable_index t key) (l1 ++ x :: e :: s :: []) := h
  have hc2 : IsChain t.mem head ((l1 ++ [x]) ++ e :: [s]) := by simpa using hc
  refine ⟨_, hashtable_pop_between h' hne he, rfl, rfl, ?_, by simp [entries], ?_⟩
  · apply ChainAt.of_head_mem hb
    have hgoal : IsChain (store t.mem e.1 (some s.2)) head ((l1 ++ [x]) ++ (e.1, s.2) :: []) := by
      apply IsChain.cut hc2
      · intro y hy
        exact load_store_other _ _ _ _ he0 (hc2.addr_ne hy (by simp))
      · exact load_store_same _ _ _ he0
      · have := (IsChain.suffix hc2).tail.tail
        exact this
    simpa using hgoal
  · show released t.mem (store t.mem e.1 (some s.2)) = []
    simp only [released, List.filter_eq_nil_iff, live_addrs, List.mem_filter]
    intro a ha
    by_cases hae : a = e.1
    · simp [hae, load_store_same _ _ _ he0]
    · rw [load_store_other _ _ _ _ he0 hae]
      have h2 := ha.2
      cases hla : load t.mem a with
      | none => simp [hla] at h2
      | some _ => simp

/-- The frame of `hashtable_pop` for chains that share no node: a pop in the
bucket of `k1` leaves the slot, the chain and the lookups of another bucket as
they were when that bucket's chain has no node in common with `l1`. -/
theorem hashtable_pop_other_bucket (t : HashTable) (k1 k2 : Nat) (l1 l2 : List (Nat × HashNode))
    (h1 : ChainAt t (hashtable_index t k1) l1) (h2 : ChainAt t (hashtable_index t k2) l2)
    (hidx : hashtable_index t k2 ≠ hashtable_index t k1)
    (hdisj : ∀ a ∈ l2.map Prod.fst, a ∉ l1.map Prod.fst) :
    ∃ t' r, hashtable_pop t k1 = .ok (t', r) ∧
      hashtable_size t' = hashtable_size t ∧
      (∀ j, j ≠ hashtable_index t k1 → bucket t' j = bucket t j) ∧
      (∀ j l', j ≠ hashtable_index t k1 → ChainAt t j l' →
        (∀ a ∈ l'.map Prod.fst, a ∉ l1.map Prod.fst) → ChainAt t' j l') ∧
      ChainAt t' (hashtable_index t k2) l2 ∧
      hashtable_get t' k2 = hashtable_get t k2 := by
  obtain ⟨t', r, hpop, hsz, hfn, hbk, hld⟩ := hashtable_pop_frame h1
  have hkeep : ∀ j l', j ≠ hashtable_index t k1 → ChainAt t j l' →
      (∀ a ∈ l'.map Prod.fst, a ∉ l1.map Prod.fst) → ChainAt t' j l' := by
    intro j l' hj hl' hd
    obtain ⟨head, hb, hc⟩ := hl'.head
    apply ChainAt.of_head (p := head)
    · rw [hbk j hj]
      exact hb
    · apply IsChain.congr_load hc
      intro e he
      exact hld e.1 (hd e.1 (List.mem_map_of_mem Prod.fst he))
  have h2' := hkeep _ l2 hidx h2 hdisj
  refine ⟨t', r, hpop, hsz, hbk, hkeep, h2', ?_⟩
  rw [hashtable_get_chain_at (hashtable_index_congr hsz hfn k2) h2', hashtable_get_chain h2]

/-! ## The claims -/

/-- C1 (round trip).  Let the bucket of `k` exist in the allocated bucket array
(the hash index is in range) and hold a well-formed chain `l`, and let the
allocation succeed (`malloc`, if called, returns the non-`NULL` pointer `p`).
Then `hashtable_set t k v` completes, and `hashtable_get` of `k` on the table
it leaves returns `v`; `k` may or may not occur in `l`. -/
theorem set_get_round_trip (t : HashTable) (k v p : Nat) (l : List (Nat × HashNode))
    (hchain : ChainAt t (hashtable_index t k) l) (hp : p ≠ 0) :
    ∃ t', hashtable_set t k v p = .ok t' ∧ hashtable_get t' k = .ok v := by
  obtain ⟨head, hb, hc⟩ := hchain.head
  cases hfm : first_match k l with
  | none =>
    have hne := first_match_none.mp hfm
    refine ⟨_, hashtable_set_absent v hb hc hne hp, ?_⟩
    apply hashtable_get_head (p := p) (n := { key := k, val := v, next := head })
    · exact bucket_set_same (q := head) hb
    · exact load_store_same _ _ _ hp
    · rfl
  | some e =>
    obtain ⟨hk, l1, l2, hl, hne⟩ := first_match_some hfm
    subst hl
    refine ⟨_, hashtable_set_found v p hchain hne hk, ?_⟩
    have hc2 := IsChain.store_entry { e.2 with val := v } hc rfl
    have hch2 : ChainAt { t with mem := store t.mem e.1 (some { e.2 with val := v }) }
        (hashtable_index t k) (l1 ++ (e.1, { e.2 with val := v }) :: l2) :=
      ChainAt.of_head hb hc2
    have := hashtable_get_chain (k := k) hch2
    rw [first_match_append _ l2 hne (by exact hk)] at this
    exact this

/-- C1 at `table_one_bucket`, for the stored key `7`. -/
theorem set_get_round_trip_witness :
    ChainAt table_one_bucket (hashtable_index table_one_bucket 7) chain_one_bucket ∧
    ∃ t', hashtable_set table_one_bucket 7 99 3 = .ok t' ∧ hashtable_get t' 7 = .ok 99 :=
  ⟨by decide, set_get_round_trip table_one_bucket 7 99 3 chain_one_bucket (by decide)
    (by decide)⟩

/-- C2 (collision chains), evaluated: on a fresh table with one bucket the
calls `set(8, 80)`, `set(7, 70)` build the chain `7, 8`; `hashtable_pop` of
the head key `7` returns `70` and empties the bucket slot, after which
`hashtable_get` of the other key `8` returns `NULL` instead of `80`. -/
theorem pop_head_loses_other_key :
    ∃ t0 t1 t2 t3, hashtable_init true true 1 hashfunc = some t0 ∧
      hashtable_set t0 8 80 1 = .ok t1 ∧ hashtable_set t1 7 70 2 = .ok t2 ∧
      hashtable_get t2 7 = .ok 70 ∧ hashtable_get t2 8 = .ok 80 ∧
      hashtable_pop t2 7 = .ok (t3, 70) ∧ hashtable_get t3 8 = .ok 0 ∧
      hashtable_pop t3 8 = .ok (t3, 0) :=
  ⟨_, _, _, _, rfl, rfl, rfl, rfl, rfl, rfl, rfl, rfl⟩

/-- C3 (pop removes), evaluated: the calls `set(40, 400)`, `set(30, 300)`,
`set(20, 200)`, `set(10, 100)` on a fresh table with one bucket reach a table
with the chain `10, 20, 30, 40`.  On it `hashtable_set` of `20 ↦ 7` completes
and `hashtable_pop` of `20` returns `7`; the pop copies node `30` into the
node of `20` and then releases the node of `40`, which stays linked, so the
following `hashtable_get` of `20` reads a released node: it has no defined
result, where the claim has `NULL`. -/
theorem get_after_pop_reads_released_node :
    ∃ t0 t t1 t2, hashtable_init true true 1 hashfunc = some t0 ∧ Reachable t0 t ∧
      ChainAt t (hashtable_index t 20)
        [(4, { key := 10, val := 100, next := 3 }), (3, { key := 20, val := 200, next := 2 }),
         (2, { key := 30, val := 300, next := 1 }), (1, { key := 40, val := 400, next := 0 })] ∧
      hashtable_set t 20 7 5 = .ok t1 ∧ hashtable_pop t1 20 = .ok (t2, 7) ∧
      load t2.mem 3 = some { key := 30, val := 300, next := 1 } ∧ load t2.mem 1 = none ∧
      hashtable_get t2 20 = .fault :=
  ⟨_, _, _, _, rfl,
    Reachable.set 10 100 4
      (Reachable.set 20 200 3
        (Reachable.set 30 300 2
          (Reachable.set 40 400 1 Reachable.start (Or.inr rfl) rfl)
          (Or.inr rfl) rfl)
        (Or.inr rfl) rfl)
      (Or.inr rfl) rfl,
    by decide, rfl, rfl, rfl, rfl, rfl⟩

/-- C4 (pop on an absent key).  Let the bucket of `k` exist and hold a
well-formed chain `l` none of whose entries has key `k`.  Then
`hashtable_pop t k` returns `NULL` and leaves the table as it was: record,
bucket array and node store are equal to those before the call. -/
theorem pop_absent_unchanged (t : HashTable) (k : Nat) (l : List (Nat × HashNode))
    (hchain : ChainAt t (hashtable_index t k) l) (habsent : ∀ e ∈ l, e.2.key ≠ k) :
    hashtable_pop t k = .ok (t, 0) :=
  hashtable_pop_absent hchain habsent

/-- C4 at `table_one_bucket`, for the key `9` that is not stored. -/
theorem pop_absent_unchanged_witness :
    ChainAt table_one_bucket (hashtable_index table_one_bucket 9) chain_one_bucket ∧
    (∀ e ∈ chain_one_bucket, e.2.key ≠ 9) ∧
    hashtable_pop table_one_bucket 9 = .ok (table_one_bucket, 0) :=
  ⟨by decide, by decide,
    pop_absent_unchanged table_one_bucket 9 chain_one_bucket (by decide) (by decide)⟩

/-- C6 (keys are compared by address; a set touches its own key only).  Let
`k1` and `k2` be different addresses whose buckets exist and hold well-formed
chains, and let `p` be what `malloc` can return (`NULL`, or a block not in
use).  Then `hashtable_set t k1 v` completes and `hashtable_get` of `k2`
returns on the table it leaves what it returned before, in the same bucket as
`k1` or in another.  In particular, on a table fresh from `hashtable_init`
with both hash indices in range, `hashtable_get` of `k2` after `set(k1, v)`
returns `NULL`. -/
theorem set_keeps_other_key (t : HashTable) (k1 k2 v p : Nat)
    (l1 l2 : List (Nat × HashNode))
    (h1 : ChainAt t (hashtable_index t k1) l1) (h2 : ChainAt t (hashtable_index t k2) l2)
    (hne : k1 ≠ k2) (hp : p = 0 ∨ load t.mem p = none) :
    (∃ t', hashtable_set t k1 v p = .ok t' ∧ hashtable_get t' k2 = hashtable_get t k2) ∧
    (∀ (n q : Nat) (f : Nat → Nat → Nat) (t0 : HashTable),
      hashtable_init true true n f = some t0 → f n k1 < n → f n k2 < n →
      ∃ t', hashtable_set t0 k1 v q = .ok t' ∧ hashtable_get t' k2 = .ok 0) := by
  refine ⟨hashtable_get_after_set v h1 h2 hne hp, ?_⟩
  intro n q f t0 hinit hk1 hk2
  simp only [hashtable_init, if_true, Option.some.injEq] at hinit
  subst hinit
  have hfresh : ∀ k, f n k < n →
      ChainAt { size := n, data := some (List.replicate n 0), func := f, mem := [] }
        (f n k) [] := by
    intro k hk
    apply ChainAt.of_head (p := 0)
    · rw [bucket_ok_iff]
      exact ⟨_, rfl, by simpa using hk, by simp⟩
    · rfl
  obtain ⟨t', hs, hg⟩ := hashtable_get_after_set v (p := q) (hfresh k1 hk1) (hfresh k2 hk2) hne
    (Or.inr (by simp [load]))
  refine ⟨t', hs, ?_⟩
  rw [hg, hashtable_get_chain (hfresh k2 hk2)]
  rfl

/-- C6 at `table_two_buckets`, for the keys `6` and `8` of one bucket. -/
theorem set_keeps_other_key_witness :
    ChainAt table_two_buckets (hashtable_index table_two_buckets 6)
      [(3, { key := 8, val := 80, next := 1 }), (1, { key := 6, val := 60, next := 0 })] ∧
    hashtable_index table_two_buckets 8 = hashtable_index table_two_buckets 6 ∧
    (∃ t', hashtable_set table_two_buckets 6 61 4 = .ok t' ∧
      hashtable_get t' 8 = hashtable_get table_two_buckets 8) ∧
    (∀ (n q : Nat) (f : Nat → Nat → Nat) (t0 : HashTable),
      hashtable_init true true n f = some t0 → f n 6 < n → f n 8 < n →
      ∃ t', hashtable_set t0 6 61 q = .ok t' ∧ hashtable_get t' 8 = .ok 0) :=
  ⟨by decide, by decide,
    set_keeps_other_key table_two_buckets 6 8 61 4
      [(3, { key := 8, val := 80, next := 1 }), (1, { key := 6, val := 60, next := 0 })]
      [(3, { key := 8, val := 80, next := 1 }), (1, { key := 6, val := 60, next := 0 })]
      (by decide) (by decide) (by decide) (Or.inr (by decide))⟩

/-- C7 (the scenario of `main.c`).  Let the strategy `f` map the two different
keys into `[0, 5)`, and let the allocations succeed: `hashtable_init` gets its
record and bucket array, and the two inserting calls get the blocks `p1` and
`p2`, different from each other.  Then on the table constructed with capacity
5, after `set(key1, val1)` and `set(key2, val2)` the size is 5,
`get(key1)` is `val1` and `get(key2)` is `val2`; after `set(key1, val2)`,
`pop(key1)` returns `val2`, `get(key1)` returns `NULL` and `get(key2)` still
returns `val2`, whether the keys share a bucket or not. -/
theorem demo_scenario (f : Nat → Nat → Nat) (key1 key2 val1 val2 p1 p2 p3 : Nat)
    (hf1 : f 5 key1 < 5) (hf2 : f 5 key2 < 5) (hkeys : key1 ≠ key2)
    (hp1 : p1 ≠ 0) (hp2 : p2 ≠ 0) (hp12 : p2 ≠ p1) :
    ∃ t0 t1 t2 t3 t4,
      hashtable_init true true 5 f = some t0 ∧
      hashtable_set t0 key1 val1 p1 = .ok t1 ∧
      hashtable_set t1 key2 val2 p2 = .ok t2 ∧
      hashtable_size t2 = 5 ∧
      hashtable_get t2 key1 = .ok val1 ∧ hashtable_get t2 key2 = .ok val2 ∧
      hashtable_set t2 key1 val2 p3 = .ok t3 ∧
      hashtable_pop t3 key1 = .ok (t4, val2) ∧
      hashtable_get t4 key1 = .ok 0 ∧ hashtable_get t4 key2 = .ok val2 := by
  have hidx0 : ∀ k, hashtable_index
      { size := 5, data := some (List.replicate 5 0), func := f, mem := [] } k = f 5 k :=
    fun _ => rfl
  obtain ⟨t1, head1, hs1, hhead1, hsz1, hfn1, hc1, hoth1, hld1⟩ :=
    set_step_insert val1 (hidx0 key1) (chainAt_fresh 5 f hf1) (by simp) hp1 (by simp [load])
  have hhd1 : head1 = 0 := hhead1
  subst hhd1
  have hidx1 : ∀ k, hashtable_index t1 k = f 5 k :=
    fun k => (hashtable_index_congr hsz1 hfn1 k).trans (hidx0 k)
  have hfresh2 : load t1.mem p2 = none := by
    rw [hld1 p2 hp12]
    simp [load]
  have hkeys' : key2 ≠ key1 := Ne.symm hkeys
  by_cases hcol : f 5 key2 = f 5 key1
  · -- the two keys share a bucket: the chain is `key2, key1`
    rw [← hcol] at hc1
    obtain ⟨t2, head2, hs2, hhead2, hsz2, hfn2, hc2, _, _⟩ :=
      set_step_insert val2 (hidx1 key2) hc1 (by simpa using hkeys) hp2 hfresh2
    have hhd2 : head2 = p1 := hhead2.head_eq
    rw [hhd2] at hc2
    have hidx2 : ∀ k, hashtable_index t2 k = f 5 k :=
      fun k => (hashtable_index_congr hsz2 hfn2 k).trans (hidx1 k)
    have hg21 : hashtable_get t2 key1 = .ok val1 := by
      rw [hashtable_get_chain_at ((hidx2 key1).trans hcol.symm) hc2]
      simp [first_match, List.find?, hkeys']
    have hg22 : hashtable_get t2 key2 = .ok val2 := by
      rw [hashtable_get_chain_at (hidx2 key2) hc2]
      simp [first_match, List.find?]
    have hc2' : ChainAt t2 (f 5 key2) ([(p2, { key := key2, val := val2, next := p1 })]
        ++ (p1, { key := key1, val := val1, next := 0 }) :: []) := hc2
    obtain ⟨t3, hs3, hsz3, hfn3, hc3, _, _⟩ :=
      set_step_overwrite val2 p3 ((hidx2 key1).trans hcol.symm) hc2'
        (by simpa using hkeys') rfl
    have hidx3 : ∀ k, hashtable_index t3 k = f 5 k :=
      fun k => (hashtable_index_congr hsz3 hfn3 k).trans (hidx2 k)
    have hc3' : ChainAt t3 (f 5 key2) ([] ++ [(p2, { key := key2, val := val2, next := p1 }),
        (p1, { key := key1, val := val2, next := 0 })]) := hc3
    obtain ⟨t4, hs4, hsz4, hfn4, hc4, _⟩ :=
      pop_step_tail ((hidx3 key1).trans hcol.symm) hc3' (by simpa using hkeys') rfl
    have hidx4 : ∀ k, hashtable_index t4 k = f 5 k :=
      fun k => (hashtable_index_congr hsz4 hfn4 k).trans (hidx3 k)
    refine ⟨_, t1, t2, t3, t4, rfl, hs1, hs2, ?_, hg21, hg22, hs3, hs4, ?_, ?_⟩
    · rw [hashtable_size, hsz2, hsz1]
    · rw [hashtable_get_chain_at ((hidx4 key1).trans hcol.symm) hc4]
      simp [first_match, List.find?, hkeys']
    · rw [hashtable_get_chain_at (hidx4 key2) hc4]
      simp [first_match, List.find?]
  · -- the keys lie in different buckets
    have hc12 : ChainAt t1 (f 5 key2) [] := hoth1 _ _ hcol (chainAt_fresh 5 f hf2)
    obtain ⟨t2, head2, hs2, hhead2, hsz2, hfn2, hc2, hoth2, _⟩ :=
      set_step_insert val2 (hidx1 key2) hc12 (by simp) hp2 hfresh2
    have hhd2 : head2 = 0 := hhead2
    rw [hhd2] at hc2
    have hidx2 : ∀ k, hashtable_index t2 k = f 5 k :=
      fun k => (hashtable_index_congr hsz2 hfn2 k).trans (hidx1 k)
    have hc21 : ChainAt t2 (f 5 key1) [(p1, { key := key1, val := val1, next := 0 })] :=
      hoth2 _ _ (Ne.symm hcol) hc1
    have hg21 : hashtable_get t2 key1 = .ok val1 := by
      rw [hashtable_get_chain_at (hidx2 key1) hc21]
      simp [first_match, List.find?]
    have hg22 : hashtable_get t2 key2 = .ok val2 := by
      rw [hashtable_get_chain_at (hidx2 key2) hc2]
      simp [first_match, List.find?]
    have hc21' : ChainAt t2 (f 5 key1)
        ([] ++ (p1, { key := key1, val := val1, next := 0 }) :: []) := hc21
    obtain ⟨t3, hs3, hsz3, hfn3, hc3, hoth3, _⟩ :=
      set_step_overwrite val2 p3 (hidx2 key1) hc21' (by simp) rfl
    have hidx3 : ∀ k, hashtable_index t3 k = f 5 k :=
      fun k => (hashtable_index_congr hsz3 hfn3 k).trans (hidx2 k)
    have hc32 : ChainAt t3 (f 5 key2) [(p2, { key := key2, val := val2, next := 0 })] :=
      hoth3 _ _ hc2 (by simpa using Ne.symm hp12)
    have hc3' : ChainAt t3 (f 5 key1) ((p1, { key := key1, val := val2, next := 0 }) :: []) :=
      hc3
    obtain ⟨t4, hs4, hsz4, hfn4, hc4, hoth4⟩ := pop_step_head (hidx3 key1) hc3' rfl
    have hidx4 : ∀ k, hashtable_index t4 k = f 5 k :=
      fun k => (hashtable_index_congr hsz4 hfn4 k).trans (hidx3 k)
    have hc42 : ChainAt t4 (f 5 key2) [(p2, { key := key2, val := val2, next := 0 })] :=
      hoth4 _ _ hcol hc32 (by simpa using Ne.symm hp12)
    refine ⟨_, t1, t2, t3, t4, rfl, hs1, hs2, ?_, hg21, hg22, hs3, hs4, ?_, ?_⟩
    · rw [hashtable_size, hsz2, hsz1]
    · rw [hashtable_get_chain_at (hidx4 key1) hc4]
      rfl
    · rw [hashtable_get_chain_at (hidx4 key2) hc42]
      simp [first_match, List.find?]

/-- C7 with the strategy and a choice of addresses as in `main.c`: keys at 1000
and 1008, values at 2000 and 2008. -/
theorem demo_scenario_witness :
    hashfunc 5 1000 < 5 ∧ hashfunc 5 1008 < 5 ∧
    ∃ t0 t1 t2 t3 t4,
      hashtable_init true true 5 hashfunc = some t0 ∧
      hashtable_set t0 1000 2000 1 = .ok t1 ∧
      hashtable_set t1 1008 2008 2 = .ok t2 ∧
      hashtable_size t2 = 5 ∧
      hashtable_get t2 1000 = .ok 2000 ∧ hashtable_get t2 1008 = .ok 2008 ∧
      hashtable_set t2 1000 2008 3 = .ok t3 ∧
      hashtable_pop t3 1000 = .ok (t4, 2008) ∧
      hashtable_get t4 1000 = .ok 0 ∧ hashtable_get t4 1008 = .ok 2008 :=
  ⟨by decide, by decide,
    demo_scenario hashfunc 1000 1008 2000 2008 1 2 3 (by decide) (by decide) (by decide)
      (by decide) (by decide) (by decide)⟩

/-- C8 (size is capacity, not cardinality).  Let `hashtable_init` be called
with capacity `n` and hand back a table (the bucket array allocated or not),
and let `t` be reached from it by any finite sequence of calls of
`hashtable_set` and `hashtable_pop`.  Then `hashtable_size t` is `n`. -/
theorem size_is_capacity (n : Nat) (f : Nat → Nat → Nat) (data_ok : Bool)
    (t0 t : HashTable) (hinit : hashtable_init true data_ok n f = some t0)
    (hreach : Reachable t0 t) : hashtable_size t = n := by
  simp only [hashtable_init, if_true, Option.some.injEq] at hinit
  subst hinit
  exact hreach.fields.1

/-- C8 at `table_five_one`, reached from `table_five` by one `hashtable_set`. -/
theorem size_is_capacity_witness :
    hashtable_init true true 5 hashfunc = some table_five ∧
    Reachable table_five table_five_one ∧ hashtable_size table_five_one = 5 :=
  ⟨rfl, Reachable.set 7 70 1 Reachable.start (Or.inr rfl) rfl,
    size_is_capacity 5 hashfunc true table_five table_five_one rfl
      (Reachable.set 7 70 1 Reachable.start (Or.inr rfl) rfl)⟩

/-- C9 as stated fails: after `set(7, NULL)` on a fresh table the chain of key
`7` holds an entry with key `7`, and `hashtable_get` of `7` returns `NULL`. -/
theorem get_null_with_entry :
    hashtable_set table_five 7 0 1 = .ok table_five_null ∧
    ChainAt table_five_null (hashtable_index table_five_null 7)
      [(1, { key := 7, val := 0, next := 0 })] ∧
    ¬ (hashtable_get table_five_null 7 = .ok 0 ↔
        ∀ e ∈ [((1 : Nat), ({ key := 7, val := 0, next := 0 } : HashNode))], e.2.key ≠ 7) := by
  refine ⟨rfl, by decide, ?_⟩
  decide

/-- C9, amended.  Let the bucket of `k` exist and hold a well-formed chain `l`.
Then `hashtable_get t k` returns `NULL` when no entry of `l` has key `k`, and
the value of the first entry with key `k` when there is one; so it returns
`NULL` exactly when no entry has key `k` or the first such entry stores the
value `NULL`. -/
theorem get_first_match (t : HashTable) (k : Nat) (l : List (Nat × HashNode))
    (hchain : ChainAt t (hashtable_index t k) l) :
    ((∀ e ∈ l, e.2.key ≠ k) → hashtable_get t k = .ok 0) ∧
    (∀ l1 e l2, l = l1 ++ e :: l2 → (∀ x ∈ l1, x.2.key ≠ k) → e.2.key = k →
      hashtable_get t k = .ok e.2.val) ∧
    (hashtable_get t k = .ok 0 ↔
      (∀ e ∈ l, e.2.key ≠ k) ∨
      ∃ l1 e l2, l = l1 ++ e :: l2 ∧ (∀ x ∈ l1, x.2.key ≠ k) ∧ e.2.key = k ∧ e.2.val = 0) := by
  have hget := hashtable_get_chain (k := k) hchain
  have hA : (∀ e ∈ l, e.2.key ≠ k) → hashtable_get t k = .ok 0 := by
    intro h
    rw [hget, first_match_none.mpr h]
  have hB : ∀ l1 e l2, l = l1 ++ e :: l2 → (∀ x ∈ l1, x.2.key ≠ k) → e.2.key = k →
      hashtable_get t k = .ok e.2.val := by
    intro l1 e l2 hl hne hk
    rw [hget, hl, first_match_append e l2 hne hk]
  refine ⟨hA, hB, ?_⟩
  constructor
  · intro h0
    cases hfm : first_match k l with
    | none => exact Or.inl (first_match_none.mp hfm)
    | some e =>
      obtain ⟨hk, l1, l2, hl, hne⟩ := first_match_some hfm
      refine Or.inr ⟨l1, e, l2, hl, hne, hk, ?_⟩
      rw [hB l1 e l2 hl hne hk] at h0
      exact Res.ok.inj h0
  · rintro (h | ⟨l1, e, l2, hl, hne, hk, hv⟩)
    · exact hA h
    · rw [hB l1 e l2 hl hne hk, hv]

/-- C9, amended, at `table_one_bucket` and the stored key `7`. -/
theorem get_first_match_witness :
    ChainAt table_one_bucket (hashtable_index table_one_bucket 7) chain_one_bucket ∧
    hashtable_get table_one_bucket 7 = .ok 70 :=
  ⟨by decide,
    (get_first_match table_one_bucket 7 chain_one_bucket (by decide)).2.1
      [(2, { key := 8, val := 80, next := 1 })] (1, { key := 7, val := 70, next := 0 }) []
      rfl (by decide) rfl⟩

/-- C10 (pop returns the value held at the time of the call).  Let the bucket
of `k` exist and hold a well-formed chain `l`.  Then `hashtable_pop t k`
completes, and the pointer it returns is the one `hashtable_get t k` returns on
the table before the call: the value of the first entry with key `k`, be it
the head of the chain, its last entry or an entry between two others, and
`NULL` when there is none. -/
theorem pop_returns_get (t : HashTable) (k : Nat) (l : List (Nat × HashNode))
    (hchain : ChainAt t (hashtable_index t k) l) :
    ∃ t' r, hashtable_pop t k = .ok (t', r) ∧ hashtable_get t k = .ok r := by
  have hget := hashtable_get_chain (k := k) hchain
  cases hfm : first_match k l with
  | none =>
    rw [hfm] at hget
    exact ⟨t, 0, hashtable_pop_absent hchain (first_match_none.mp hfm), hget⟩
  | some e =>
    rw [hfm] at hget
    obtain ⟨hk, l1, l2, hl, hne⟩ := first_match_some hfm
    subst hl
    obtain ⟨t', ht'⟩ := hashtable_pop_value hchain hne hk
    exact ⟨t', e.2.val, ht', hget⟩

/-- C10 at `table_one_bucket`, for the key `7` of the last entry. -/
theorem pop_returns_get_witness :
    ChainAt table_one_bucket (hashtable_index table_one_bucket 7) chain_one_bucket ∧
    ∃ t' r, hashtable_pop table_one_bucket 7 = .ok (t', r) ∧
      hashtable_get table_one_bucket 7 = .ok r :=
  ⟨by decide, pop_returns_get table_one_bucket 7 chain_one_bucket (by decide)⟩

/-- C11 (atomic failure of set).  Let the bucket of `k` exist and hold a
well-formed chain `l` none of whose entries has key `k`, and let the allocation
of the new entry fail (`malloc` returns `NULL`).  Then `hashtable_set t k v`
completes and leaves the table as it was: bucket array, node store, size and
strategy are equal to those before the call. -/
theorem set_alloc_failure_unchanged (t : HashTable) (k v : Nat) (l : List (Nat × HashNode))
    (hchain : ChainAt t (hashtable_index t k) l) (habsent : ∀ e ∈ l, e.2.key ≠ k) :
    hashtable_set t k v 0 = .ok t :=
  hashtable_set_absent_null v hchain habsent

/-- C11 at `table_one_bucket`, for the key `9` that is not stored. -/
theorem set_alloc_failure_unchanged_witness :
    ChainAt table_one_bucket (hashtable_index table_one_bucket 9) chain_one_bucket ∧
    (∀ e ∈ chain_one_bucket, e.2.key ≠ 9) ∧
    hashtable_set table_one_bucket 9 90 0 = .ok table_one_bucket :=
  ⟨by decide, by decide,
    set_alloc_failure_unchanged table_one_bucket 9 90 chain_one_bucket (by decide)
      (by decide)⟩

/-- C12 (construction fails when storage cannot be obtained), evaluated: when
the `malloc` of the record succeeds and the `calloc` of the bucket array fails,
`hashtable_init` leaves a non-`NULL` handle to a table whose bucket array is
`NULL`, for every capacity and strategy; `hashtable_set`, `hashtable_get` and
`hashtable_pop` on it index the `NULL` array and have no defined result.  Only
the failure of the first allocation leaves the handle `NULL`. -/
theorem init_keeps_table_without_buckets (n : Nat) (f : Nat → Nat → Nat) (k v p : Nat) :
    hashtable_init false true n f = none ∧ hashtable_init false false n f = none ∧
    ∃ t, hashtable_init true false n f = some t ∧ t.data = none ∧
      hashtable_set t k v p = .fault ∧ hashtable_get t k = .fault ∧
      hashtable_pop t k = .fault :=
  ⟨rfl, rfl, _, rfl, rfl, rfl, rfl, rfl⟩

/-- C13 (insertion at the front).  Let the bucket of `k` exist and hold a
well-formed chain `l` none of whose entries has key `k`, and let the allocation
succeed with a block `p` not in use.  Then `hashtable_set t k v` completes; the
bucket slot of `k` now points to the new node `p`, which holds `k`, `v` and a
link to the previous head (`NULL` for an empty bucket); the chain of the bucket
is the new entry followed by the old chain `l`, nodes and contents unchanged;
every other bucket slot and every chain of another bucket is as before, and
no block other than `p` is written. -/
theorem set_inserts_at_front (t : HashTable) (k v p : Nat) (l : List (Nat × HashNode))
    (hchain : ChainAt t (hashtable_index t k) l) (habsent : ∀ e ∈ l, e.2.key ≠ k)
    (hp : p ≠ 0) (hfresh : load t.mem p = none) :
    ∃ t' head, hashtable_set t k v p = .ok t' ∧
      bucket t (hashtable_index t k) = .ok head ∧
      bucket t' (hashtable_index t k) = .ok p ∧
      load t'.mem p = some { key := k, val := v, next := head } ∧
      ChainAt t' (hashtable_index t k) ((p, { key := k, val := v, next := head }) :: l) ∧
      (∀ j, j ≠ hashtable_index t k → bucket t' j = bucket t j) ∧
      (∀ j l', j ≠ hashtable_index t k → ChainAt t j l' → ChainAt t' j l') ∧
      (∀ q, q ≠ p → load t'.mem q = load t.mem q) := by
  obtain ⟨head, hb, hc⟩ := hchain.head
  refine ⟨_, head, hashtable_set_absent v hb hc habsent hp, hb, bucket_set_same (q := head) hb,
    load_store_same _ _ _ hp, hashtable_set_insert v hb hc hp hfresh, ?_, ?_, ?_⟩
  · intro j hj
    exact bucket_set_other _ _ hj
  · intro j l' hj hl'
    exact ChainAt.insert_other _ hl' hj hp hfresh
  · intro q hq
    exact load_store_other _ _ _ _ hp hq

/-- C13 at `table_one_bucket`, for the key `9` that is not stored and the
unused block `3`. -/
theorem set_inserts_at_front_witness :
    ChainAt table_one_bucket (hashtable_index table_one_bucket 9) chain_one_bucket ∧
    (∀ e ∈ chain_one_bucket, e.2.key ≠ 9) ∧ load table_one_bucket.mem 3 = none ∧
    ∃ t' head, hashtable_set table_one_bucket 9 90 3 = .ok t' ∧
      bucket table_one_bucket (hashtable_index table_one_bucket 9) = .ok head ∧
      bucket t' (hashtable_index table_one_bucket 9) = .ok 3 ∧
      load t'.mem 3 = some { key := 9, val := 90, next := head } ∧
      ChainAt t' (hashtable_index table_one_bucket 9)
        ((3, { key := 9, val := 90, next := head }) :: chain_one_bucket) ∧
      (∀ j, j ≠ hashtable_index table_one_bucket 9 → bucket t' j = bucket table_one_bucket j) ∧
      (∀ j l', j ≠ hashtable_index table_one_bucket 9 → ChainAt table_one_bucket j l' →
        ChainAt t' j l') ∧
      (∀ q, q ≠ 3 → load t'.mem q = load table_one_bucket.mem q) :=
  ⟨by decide, by decide, by decide,
    set_inserts_at_front table_one_bucket 9 90 3 chain_one_bucket (by decide) (by decide)
      (by decide) (by decide)⟩

/-- C14 as stated fails: on `table_one_bucket`, whose chain holds `8 ↦ 80` and
`7 ↦ 70`, `hashtable_set` of the new key `9` leaves the chain `9, 8, 7`, which
is not the old chain followed by the new entry. -/
theorem set_new_key_not_at_end :
    ∃ t' l', hashtable_set table_one_bucket 9 90 3 = .ok t' ∧
      ChainAt t' (hashtable_index table_one_bucket 9) l' ∧
      entries l' = [(9, 90), (8, 80), (7, 70)] ∧
      entries l' ≠ entries chain_one_bucket ++ [(9, 90)] :=
  ⟨_, (3, { key := 9, val := 90, next := 2 }) :: chain_one_bucket, rfl, by decide, by decide,
    by decide⟩

/-- C14, amended.  Let the bucket of `k` exist and hold a well-formed chain `l`
none of whose entries has key `k`, and let the allocation succeed with a block
`p` not in use.  Then `hashtable_set t k v` inserts the new item at the front
of the bucket's linked list: the (key, value) sequence of the chain after the
call is `(k, v)` followed by the old sequence.  It is the old sequence followed
by `(k, v)` only when the old chain is empty. -/
theorem set_new_key_at_front (t : HashTable) (k v p : Nat) (l : List (Nat × HashNode))
    (hchain : ChainAt t (hashtable_index t k) l) (habsent : ∀ e ∈ l, e.2.key ≠ k)
    (hp : p ≠ 0) (hfresh : load t.mem p = none) :
    ∃ t' l', hashtable_set t k v p = .ok t' ∧ ChainAt t' (hashtable_index t k) l' ∧
      entries l' = (k, v) :: entries l ∧
      (entries l' = entries l ++ [(k, v)] ↔ l = []) := by
  obtain ⟨head, hb, hc⟩ := hchain.head
  refine ⟨_, _, hashtable_set_absent v hb hc habsent hp,
    hashtable_set_insert v hb hc hp hfresh, rfl, ?_⟩
  constructor
  · intro h
    cases l with
    | nil => rfl
    | cons e l0 =>
      exfalso
      simp only [entries, List.map_cons, List.cons_append, List.cons.injEq, Prod.mk.injEq] at h
      exact habsent e (List.mem_cons_self _ _) h.1.1.symm
  · rintro rfl
    rfl

/-- C14, amended, at `table_one_bucket`, for the key `9` that is not stored. -/
theorem set_new_key_at_front_witness :
    ChainAt table_one_bucket (hashtable_index table_one_bucket 9) chain_one_bucket ∧
    (∀ e ∈ chain_one_bucket, e.2.key ≠ 9) ∧ load table_one_bucket.mem 3 = none ∧
    ∃ t' l', hashtable_set table_one_bucket 9 90 3 = .ok t' ∧
      ChainAt t' (hashtable_index table_one_bucket 9) l' ∧
      entries l' = (9, 90) :: entries chain_one_bucket ∧
      (entries l' = entries chain_one_bucket ++ [(9, 90)] ↔ chain_one_bucket = []) :=
  ⟨by decide, by decide, by decide,
    set_new_key_at_front table_one_bucket 9 90 3 chain_one_bucket (by decide) (by decide)
      (by decide) (by decide)⟩

/-- C15 (key uniqueness), evaluated: on a fresh table with two buckets and the
strategy of `main.c`, the calls `set(1)`, `set(8)`, `set(6)`, `set(4)`, `set(2)`,
`pop(4)`, `set(3)`, `pop(6)`, `pop(3)`, `set(3)`, `set(7)` all return, every
allocation getting a new block or the block released last.  Each of the two
removals of a middle entry releases a node that stays linked in bucket 0, and
the allocator hands that block out again for bucket 1.  In the table reached
the chain of bucket 0 holds the key `3` twice. -/
theorem duplicate_key_after_reuse :
    ∃ t0 t, hashtable_init true true 2 hashfunc = some t0 ∧ Reachable t0 t ∧
      ChainAt t 0 chain_with_duplicate ∧
      entries chain_with_duplicate = [(2, 20), (3, 30), (7, 70), (3, 31)] ∧
      ¬ ((entries chain_with_duplicate).map Prod.fst).Nodup ∧
      ChainAt t 1
        [(1, { key := 7, val := 70, next := 2 }), (2, { key := 3, val := 31, next := 0 })] :=
  ⟨_, _, rfl,
    Reachable.set 7 70 1
      (Reachable.set 3 31 2
        (Reachable.pop 3
          (Reachable.pop 6
            (Reachable.set 3 30 2
              (Reachable.pop 4
                (Reachable.set 2 20 5
                  (Reachable.set 4 40 4
                    (Reachable.set 6 60 3
                      (Reachable.set 8 80 2
                        (Reachable.set 1 10 1 Reachable.start (Or.inr rfl) rfl)
                        (Or.inr rfl) rfl)
                      (Or.inr rfl) rfl)
                    (Or.inr rfl) rfl)
                  (Or.inr rfl) rfl)
                rfl)
              (Or.inr rfl) rfl)
            rfl)
          rfl)
        (Or.inr rfl) rfl)
      (Or.inr rfl) rfl,
    by decide, by decide, by decide, by decide⟩

/-- C16 (chain membership follows the hash strategy), evaluated: on a fresh
table with two buckets and the strategy of `main.c`, the calls `set(8)`,
`set(6)`, `set(4)`, `set(2)` build the chain `2, 4, 6, 8` in bucket 0; `pop(4)`
releases the node of `8`, which stays linked, and `set(5)` gets that block for
its new entry in bucket 1.  In the table reached the chain of bucket 0 holds
the key `5`, whose hash index is 1. -/
theorem foreign_key_after_reuse :
    ∃ t0 t, hashtable_init true true 2 hashfunc = some t0 ∧ Reachable t0 t ∧
      ChainAt t 0 chain_with_foreign_key ∧
      entries chain_with_foreign_key = [(2, 20), (6, 60), (5, 50)] ∧
      hashtable_index t 5 = 1 :=
  ⟨_, _, rfl,
    Reachable.set 5 50 1
      (Reachable.pop 4
        (Reachable.set 2 20 4
          (Reachable.set 4 40 3
            (Reachable.set 6 60 2
              (Reachable.set 8 80 1 Reachable.start (Or.inr rfl) rfl)
              (Or.inr rfl) rfl)
            (Or.inr rfl) rfl)
          (Or.inr rfl) rfl)
        rfl)
      (Or.inr rfl) rfl,
    by decide, by decide, rfl⟩

/-- C17 (removal of a non-head entry), evaluated: in `table_four_chain` the key
`20` lies between `10` and `30, 40`.  `hashtable_pop` of `20` returns `200`; the
matched node 3 keeps its place and now holds `30 ↦ 300` and the link to node 1,
the node of `40`, as the claim has it, but node 1 has been released.  The
bucket no longer heads a chain of allocated nodes, so the pair `40 ↦ 400` is
not in it: `hashtable_get` of `40` reads the released node. -/
theorem pop_between_loses_later_entries :
    ChainAt table_four_chain (hashtable_index table_four_chain 20) chain_four ∧
    entries chain_four = [(10, 100), (20, 200), (30, 300), (40, 400)] ∧
    hashtable_pop table_four_chain 20 = .ok (table_four_popped, 200) ∧
    bucket table_four_popped 0 = .ok 4 ∧
    load table_four_popped.mem 4 = some { key := 10, val := 100, next := 3 } ∧
    load table_four_popped.mem 3 = some { key := 30, val := 300, next := 1 } ∧
    load table_four_popped.mem 1 = none ∧
    (∀ l, ¬ ChainAt table_four_popped (hashtable_index table_four_popped 40) l) ∧
    hashtable_get table_four_popped 10 = .ok 100 ∧
    hashtable_get table_four_popped 30 = .ok 300 ∧
    hashtable_get table_four_popped 40 = .fault :=
  ⟨by decide, by decide, rfl, rfl, rfl, rfl, rfl, no_chain_of_fault rfl, rfl, rfl, rfl⟩

/-- C18 (removal at the chain head).  Let the bucket of `k` exist and hold a
well-formed chain whose head `e` has key `k`, with or without successors `l2`.
Then `hashtable_pop t k` returns the value of the head and leaves the bucket
slot `NULL`, so that on the table after the call `hashtable_get` returns `NULL`
for every key whose hash index is that of `k`, the keys of `l2` included. -/
theorem pop_head_empties_bucket (t : HashTable) (k : Nat) (e : Nat × HashNode)
    (l2 : List (Nat × HashNode)) (hchain : ChainAt t (hashtable_index t k) (e :: l2))
    (hk : e.2.key = k) :
    ∃ t', hashtable_pop t k = .ok (t', e.2.val) ∧
      bucket t' (hashtable_index t k) = .ok 0 ∧
      ∀ k', hashtable_index t k' = hashtable_index t k → hashtable_get t' k' = .ok 0 := by
  obtain ⟨t', hpop, hsz, hfn, hch, _⟩ := pop_step_head rfl hchain hk
  obtain ⟨head, hb, hc⟩ := hch.head
  have h0 : head = 0 := hc
  subst h0
  refine ⟨t', hpop, hb, ?_⟩
  intro k' hk'
  rw [hashtable_get_chain_at ((hashtable_index_congr hsz hfn k').trans hk') hch]
  rfl

/-- C18 at `table_one_bucket`: the head holds `8` and is followed by `7`. -/
theorem pop_head_empties_bucket_witness :
    ChainAt table_one_bucket (hashtable_index table_one_bucket 8)
      ((2, { key := 8, val := 80, next := 1 }) :: [(1, { key := 7, val := 70, next := 0 })]) ∧
    hashtable_get table_one_bucket 7 = .ok 70 ∧
    ∃ t', hashtable_pop table_one_bucket 8 = .ok (t', 80) ∧
      bucket t' (hashtable_index table_one_bucket 8) = .ok 0 ∧
      ∀ k', hashtable_index table_one_bucket k' = hashtable_index table_one_bucket 8 →
        hashtable_get t' k' = .ok 0 :=
  ⟨by decide, by decide,
    pop_head_empties_bucket table_one_bucket 8 (2, { key := 8, val := 80, next := 1 })
      [(1, { key := 7, val := 70, next := 0 })] (by decide) rfl⟩

/-- C19 (pop releases the removed entry's storage), evaluated.  In
`table_three_chain` the key `20` lies between `10` and `30`: `hashtable_pop` of
`20` copies node 1 into node 2 and releases no block at all, node 1 staying
allocated with no link to it.  In `table_four_chain` the key `20` lies between
`10` and `30, 40`: `hashtable_pop` of `20` releases block 1, the node of `40`,
not block 2, the successor it copied, and block 1 is still linked from node 3,
which the bucket reaches through node 4. -/
theorem pop_between_releases_wrong_block :
    hashtable_pop table_three_chain 20 = .ok (table_three_popped, 200) ∧
    released table_three_chain.mem table_three_popped.mem = [] ∧
    load table_three_popped.mem 1 = some { key := 30, val := 300, next := 0 } ∧
    ChainAt table_three_popped 0
      [(3, { key := 10, val := 100, next := 2 }), (2, { key := 30, val := 300, next := 0 })] ∧
    hashtable_pop table_four_chain 20 = .ok (table_four_popped, 200) ∧
    load table_four_chain.mem 3 = some { key := 20, val := 200, next := 2 } ∧
    released table_four_chain.mem table_four_popped.mem = [1] ∧
    load table_four_popped.mem 2 = some { key := 30, val := 300, next := 1 } ∧
    bucket table_four_popped 0 = .ok 4 ∧
    load table_four_popped.mem 4 = some { key := 10, val := 100, next := 3 } ∧
    load table_four_popped.mem 3 = some { key := 30, val := 300, next := 1 } :=
  ⟨rfl, by decide, rfl, by decide, rfl, rfl, by decide, rfl, rfl, rfl, rfl⟩

/-- C20 (pop is local to one bucket), evaluated: on a fresh table with two
buckets and the strategy of `main.c`, the calls `set(10)`, `set(8)`, `set(6)`,
`set(4)`, `set(2)`, `pop(6)`, `set(5)` all return; `pop(6)` releases the node of
`10`, which stays linked in bucket 0, and `set(5)` gets that block for the head
of bucket 1.  In the table reached both buckets head chains of allocated nodes
and `hashtable_get` of `5` returns `50`.  The keys `4` and `5` have different
hash indices, yet `hashtable_pop` of `4` in bucket 0 releases block 1, the head
of bucket 1: the slot of bucket 1 still points to it, and `hashtable_get` of `5`
reads the released node. -/
theorem pop_releases_head_of_other_bucket :
    ∃ t0 t t', hashtable_init true true 2 hashfunc = some t0 ∧ Reachable t0 t ∧
      ChainAt t 0 chain_into_other_bucket ∧
      ChainAt t 1 [(1, { key := 5, val := 50, next := 0 })] ∧
      hashtable_index t 4 = 0 ∧ hashtable_index t 5 = 1 ∧
      hashtable_get t 5 = .ok 50 ∧
      hashtable_pop t 4 = .ok (t', 40) ∧ hashtable_size t' = hashtable_size t ∧
      bucket t 1 = .ok 1 ∧ bucket t' 1 = .ok 1 ∧
      released t.mem t'.mem = [1] ∧
      (∀ l, ¬ ChainAt t' (hashtable_index t' 5) l) ∧
      hashtable_get t' 5 = .fault :=
  ⟨_, _, _, rfl,
    Reachable.set 5 50 1
      (Reachable.pop 6
        (Reachable.set 2 20 5
          (Reachable.set 4 40 4
            (Reachable.set 6 60 3
              (Reachable.set 8 80 2
                (Reachable.set 10 100 1 Reachable.start (Or.inr rfl) rfl)
                (Or.inr rfl) rfl)
              (Or.inr rfl) rfl)
            (Or.inr rfl) rfl)
          (Or.inr rfl) rfl)
        rfl)
      (Or.inr rfl) rfl,
    by decide, by decide, rfl, rfl, rfl, rfl, rfl, rfl, rfl, by decide, no_chain_of_fault rfl,
    rfl⟩

end HashTableC
